import Mathlib

/-!
Cursor buffer of `p4-editor/Editor.hpp` and list of `p4-editor/List.hpp`

A shallow embedding of the `Editor` class (the cursor buffer built on
`std::list<char>` with two sentinel nodes) and the properties of its public
operations, followed by an embedding of the doubly-linked `List<T>` over an
explicit memory of nodes.

Modelling conventions.

* `std::list<char>` is a `List Char` of nodes, sentinels included.  An iterator
  is the position of the node it refers to: position `k < buffer.length` is the
  `k`-th node and position `buffer.length` is `buffer.end()`.  Because list
  iterators are stable node references, inserting a node at position `p` moves
  every iterator at a position `≥ p` one to the right and erasing the node at
  `p` moves every iterator at a position `> p` one to the left.
* `int` fields are `Int` (no overflow: fewer than `2^31` nodes).
* A failed `assert` and undefined behaviour of the iterator operations are the
  two faults `Fault.assertion` and `Fault.undefined`; a `while` loop that has
  not finished after the given number of iterations is `Fault.fuel`.
-/

namespace P4

instance {ε α : Type} [DecidableEq ε] [DecidableEq α] : DecidableEq (Except ε α)
  | .ok a, .ok b => if h : a = b then isTrue (by rw [h]) else isFalse (fun h2 => h (Except.ok.inj h2))
  | .error a, .error b => if h : a = b then isTrue (by rw [h]) else isFalse (fun h2 => h (Except.error.inj h2))
  | .ok _, .error _ => isFalse (fun h => Except.noConfusion h)
  | .error _, .ok _ => isFalse (fun h => Except.noConfusion h)

/-- Ways a run of an operation can fail to return. -/
inductive Fault where
  | assertion
  | undefined
  | fuel
deriving DecidableEq, Repr

/-- The placeholder value `0` stored in both sentinel nodes. -/
def NUL : Char := Char.ofNat 0

/-- The private state of `class Editor`. -/
structure Editor where
  buffer : List Char
  cursor : Nat
  row : Int
  column : Int
  index : Int
  start_sentinel : Nat
  end_sentinel : Nat
deriving DecidableEq, Repr

namespace Editor

/-- Embedding of `Editor::Editor()`: `push_back(0)`, `end_sentinel = begin()`, `push_front(0)`
(which moves the end sentinel's node to position 1), `start_sentinel = begin()`,
`cursor = end_sentinel`. -/
def ctor : Editor :=
  { buffer := [NUL, NUL]
    cursor := 1
    row := 1
    column := 0
    index := 0
    start_sentinel := 0
    end_sentinel := 1 }

/-- Value of `*it` for an iterator `it` into the buffer; dereferencing `buffer.end()` is
undefined. -/
def deref (e : Editor) (it : Nat) : Except Fault Char :=
  match e.buffer[it]? with
  | some c => .ok c
  | none => .error .undefined

/-- Embedding of `Editor::is_at_end`. -/
def is_at_end (e : Editor) : Bool := e.cursor == e.end_sentinel

/-- Embedding of `Editor::is_at_start` (private helper). -/
def is_at_start (e : Editor) : Bool := e.row == 1 && e.column == 0

/-- The loop `while (cursor_aux != start_sentinel && *(--cursor_aux) != '\n') ++col;`
of `compute_column`, returning the final `cursor_aux` and `col`.  The recursion
is on the position of `cursor_aux`, which every iteration decrements;
decrementing `buffer.begin()` is undefined. -/
def compute_column_loop (e : Editor) : Nat → Int → Except Fault (Nat × Int)
  | 0, col => if 0 = e.start_sentinel then .ok (0, col) else .error .undefined
  | a + 1, col =>
    if a + 1 = e.start_sentinel then .ok (a + 1, col)
    else
      match e.buffer[a]? with
      | none => .error .undefined
      | some c => if c ≠ '\n' then compute_column_loop e a (col + 1) else .ok (a, col)

/-- Embedding of `Editor::compute_column`. -/
def compute_column (e : Editor) : Except Fault Int :=
  if e.cursor = e.start_sentinel then .ok 0
  else
    match compute_column_loop e e.cursor 0 with
    | .error f => .error f
    | .ok (cursor_aux, col) =>
      if cursor_aux = e.start_sentinel then .ok (col - 1) else .ok col

/-- Embedding of `Editor::forward`. -/
def forward (e : Editor) : Except Fault (Editor × Bool) :=
  if e.is_at_end then .ok (e, false)
  else if e.cursor = e.buffer.length then .error .assertion
  else
    match e.deref e.cursor with
    | .error f => .error f
    | .ok c =>
      let e1 := if c = '\n' then { e with row := e.row + 1, column := 0 }
                else { e with column := e.column + 1 }
      .ok ({ e1 with cursor := e1.cursor + 1, index := e1.index + 1 }, true)

/-- Embedding of `Editor::backward`. -/
def backward (e : Editor) : Except Fault (Editor × Bool) :=
  if e.is_at_start then .ok (e, false)
  else
    match e.cursor with
    | 0 => .error .undefined
    | k + 1 =>
      let e1 := { e with cursor := k, index := e.index - 1 }
      if e1.cursor = e1.buffer.length then .error .assertion
      else if e1.cursor ≠ e1.start_sentinel then
        match e1.deref e1.cursor with
        | .error f => .error f
        | .ok c =>
          if c = '\n' then
            let e2 := { e1 with row := e1.row - 1 }
            match e2.compute_column with
            | .error f => .error f
            | .ok col => .ok ({ e2 with column := col }, true)
          else .ok ({ e1 with column := e1.column - 1 }, true)
      else .ok ({ e1 with column := e1.column - 1 }, true)

/-- Where an iterator at position `k` is after a node is inserted at position `p`. -/
def after_insert (p k : Nat) : Nat := if p ≤ k then k + 1 else k

/-- Where an iterator at position `k` is after the node at position `p` is erased. -/
def after_erase (p k : Nat) : Nat := if p < k then k - 1 else k

/-- Embedding of `Editor::insert`: `cursor = buffer.insert(cursor, c); ++cursor;` leaves the
cursor on the node it was on, now one position to the right. -/
def insert (e : Editor) (c : Char) : Editor :=
  let e1 := { e with
    buffer := e.buffer.take e.cursor ++ c :: e.buffer.drop e.cursor
    start_sentinel := after_insert e.cursor e.start_sentinel
    end_sentinel := after_insert e.cursor e.end_sentinel }
  let e2 := { e1 with cursor := e1.cursor + 1, index := e1.index + 1 }
  if c = '\n' then { e2 with row := e2.row + 1, column := 0 }
  else { e2 with column := e2.column + 1 }

/-- Embedding of `Editor::remove`.  Erasing the node `start_sentinel` refers to would leave
that iterator dangling for every later comparison, so the run stops there. -/
def remove (e : Editor) : Except Fault (Editor × Bool) :=
  if e.is_at_end then .ok (e, false)
  else if e.cursor = e.buffer.length then .error .assertion
  else
    match e.deref e.cursor with
    | .error f => .error f
    | .ok c =>
      match (if c = '\n' then e.compute_column else .ok e.column) with
      | .error f => .error f
      | .ok col =>
        if e.cursor = e.start_sentinel then .error .undefined
        else
          .ok ({ e with
                  column := col
                  buffer := e.buffer.eraseIdx e.cursor
                  start_sentinel := after_erase e.cursor e.start_sentinel
                  end_sentinel := after_erase e.cursor e.end_sentinel }, true)

/-- Embedding of `Editor::move_to_row_start`, with a bound on the number of iterations. -/
def move_to_row_start : Nat → Editor → Except Fault Editor
  | 0, e => if e.column > 0 then .error .fuel else .ok e
  | fuel + 1, e =>
    if e.column > 0 then
      match e.backward with
      | .error f => .error f
      | .ok r => move_to_row_start fuel r.1
    else .ok e

/-- Embedding of `Editor::move_to_row_end`, with a bound on the number of iterations. -/
def move_to_row_end : Nat → Editor → Except Fault Editor
  | 0, e =>
    match e.deref e.cursor with
    | .error f => .error f
    | .ok c => if c ≠ '\n' then .error .fuel else .ok e
  | fuel + 1, e =>
    match e.deref e.cursor with
    | .error f => .error f
    | .ok c =>
      if c ≠ '\n' then
        match e.forward with
        | .error f => .error f
        | .ok r => move_to_row_end fuel r.1
      else .ok e

/-- First loop of `Editor::move_to_column`:
`while (*cursor != '\n' && column < new_column) forward();`. -/
def move_to_column_fwd (new_column : Int) : Nat → Editor → Except Fault Editor
  | 0, e =>
    match e.deref e.cursor with
    | .error f => .error f
    | .ok c => if c ≠ '\n' ∧ e.column < new_column then .error .fuel else .ok e
  | fuel + 1, e =>
    match e.deref e.cursor with
    | .error f => .error f
    | .ok c =>
      if c ≠ '\n' ∧ e.column < new_column then
        match e.forward with
        | .error f => .error f
        | .ok r => move_to_column_fwd new_column fuel r.1
      else .ok e

/-- Second loop of `Editor::move_to_column`:
`while (column > new_column) backward();`. -/
def move_to_column_bwd (new_column : Int) : Nat → Editor → Except Fault Editor
  | 0, e => if e.column > new_column then .error .fuel else .ok e
  | fuel + 1, e =>
    if e.column > new_column then
      match e.backward with
      | .error f => .error f
      | .ok r => move_to_column_bwd new_column fuel r.1
    else .ok e

/-- Embedding of `Editor::move_to_column`; each loop may run `fuel` iterations. -/
def move_to_column (fuel : Nat) (e : Editor) (new_column : Int) : Except Fault Editor :=
  if new_column < 0 then .error .assertion
  else
    match move_to_column_fwd new_column fuel e with
    | .error f => .error f
    | .ok e1 => move_to_column_bwd new_column fuel e1

/-- Embedding of `Editor::up`; each loop may run `fuel` iterations. -/
def up (fuel : Nat) (e : Editor) : Except Fault (Editor × Bool) :=
  if e.row = 1 then .ok (e, false)
  else
    let btm_col := e.column
    match move_to_row_start fuel e with
    | .error f => .error f
    | .ok e1 =>
      match e1.backward with
      | .error f => .error f
      | .ok r =>
        match r.1.compute_column with
        | .error f => .error f
        | .ok col =>
          match move_to_column fuel { r.1 with column := col } btm_col with
          | .error f => .error f
          | .ok e4 => .ok (e4, true)

/-- Embedding of `Editor::down`; each loop may run `fuel` iterations. -/
def down (fuel : Nat) (e : Editor) : Except Fault (Editor × Bool) :=
  if e.is_at_end then .ok (e, false)
  else
    let top_col := e.column
    match move_to_row_end fuel e with
    | .error f => .error f
    | .ok e1 =>
      match e1.forward with
      | .error f => .error f
      | .ok r =>
        match r.1.compute_column with
        | .error f => .error f
        | .ok col =>
          match move_to_column fuel { r.1 with column := col } top_col with
          | .error f => .error f
          | .ok e4 => .ok (e4, true)

/-- Embedding of `Editor::data_at_cursor`. -/
def data_at_cursor (e : Editor) : Except Fault Char :=
  if e.is_at_end then .error .assertion else e.deref e.cursor

/-- Embedding of `Editor::get_row`. -/
def get_row (e : Editor) : Int := e.row

/-- Embedding of `Editor::get_column`. -/
def get_column (e : Editor) : Int := e.column

/-- Embedding of `Editor::get_index`. -/
def get_index (e : Editor) : Int := e.index

/-- Embedding of `Editor::size`: `buffer.size()`, the number of nodes of the list. -/
def size (e : Editor) : Int := e.buffer.length

/-- The loop `for (; it != end_sentinel; ++it) result.push_back(*it);` of
`stringify`; `rest` is the list of nodes from position `it` on, so an empty
`rest` means `it == buffer.end()`, which the loop would dereference. -/
def stringify_loop (end_sentinel : Nat) : List Char → Nat → String → Except Fault String
  | [], it, result => if it = end_sentinel then .ok result else .error .undefined
  | c :: rest, it, result =>
    if it = end_sentinel then .ok result
    else stringify_loop end_sentinel rest (it + 1) (result.push c)

/-- Embedding of `Editor::stringify`. -/
def stringify (e : Editor) : Except Fault String :=
  if e.buffer.length ≤ e.start_sentinel then .error .undefined
  else stringify_loop e.end_sentinel (e.buffer.drop (e.start_sentinel + 1)) (e.start_sentinel + 1) ""

end Editor

open Editor

/-- The states an `Editor` object can be in when a public member function
returns: the state after construction, and the state any public mutator
returns with from such a state.  The bound on loop iterations is arbitrary. -/
inductive Reachable : Editor → Prop where
  | ctor : Reachable Editor.ctor
  | forward {e : Editor} {r : Editor × Bool} :
      Reachable e → e.forward = .ok r → Reachable r.1
  | backward {e : Editor} {r : Editor × Bool} :
      Reachable e → e.backward = .ok r → Reachable r.1
  | insert {e : Editor} (c : Char) : Reachable e → Reachable (e.insert c)
  | remove {e : Editor} {r : Editor × Bool} :
      Reachable e → e.remove = .ok r → Reachable r.1
  | move_to_row_start {e e1 : Editor} (fuel : Nat) :
      Reachable e → move_to_row_start fuel e = .ok e1 → Reachable e1
  | move_to_row_end {e e1 : Editor} (fuel : Nat) :
      Reachable e → move_to_row_end fuel e = .ok e1 → Reachable e1
  | move_to_column {e e1 : Editor} (fuel : Nat) (n : Int) :
      Reachable e → move_to_column fuel e n = .ok e1 → Reachable e1
  | up {e : Editor} {r : Editor × Bool} (fuel : Nat) :
      Reachable e → up fuel e = .ok r → Reachable r.1
  | down {e : Editor} {r : Editor × Bool} (fuel : Nat) :
      Reachable e → down fuel e = .ok r → Reachable r.1

/-- The nodes strictly between the leading sentinel and the cursor, in buffer
order: the visible characters strictly before the cursor. -/
def visible_before (e : Editor) : List Char :=
  (e.buffer.take e.cursor).drop (e.start_sentinel + 1)

/-- Number of line terminators in a run of characters. -/
def newlines (l : List Char) : Nat := l.count '\n'

/-- Number of characters of `l` that come after its last line terminator (all
of `l` when it has none). -/
def chars_since_newline (l : List Char) : Nat :=
  (l.reverse.takeWhile (fun c => decide (c ≠ '\n'))).length

/-- The state whose visible content is `rp.reverse ++ post` with the cursor on
the first character of `post` (on the trailing sentinel when `post` is empty)
and row, column and index in agreement with that position.  `rp` lists the
characters before the cursor nearest first. -/
def canon (rp post : List Char) : Editor :=
  { buffer := NUL :: (rp.reverse ++ (post ++ [NUL]))
    cursor := rp.length + 1
    row := 1 + (rp.count '\n' : Nat)
    column := ((rp.takeWhile (fun c => decide (c ≠ '\n'))).length : Nat)
    index := (rp.length : Nat)
    start_sentinel := 0
    end_sentinel := rp.length + post.length + 1 }

/-- The editor after `insert('a'); insert('\n'); insert('b');` on a new one:
content `"a\nb"` with the cursor at the end, on row 2. -/
def two_rows : Editor := ((ctor.insert 'a').insert '\n').insert 'b'

/-- The editor after `insert('A'); backward();` on a new one: content `"A"`
with the cursor on the `'A'`. -/
def on_first_char : Editor :=
  { buffer := [NUL, 'A', NUL]
    cursor := 1
    row := 1
    column := 0
    index := 0
    start_sentinel := 0
    end_sentinel := 2 }

/-- The editor after `backward();` on `two_rows`: content `"a\nb"` with the
cursor on the `'b'`, the first character of row 2. -/
def on_second_row : Editor :=
  { buffer := [NUL, 'a', '\n', 'b', NUL]
    cursor := 3
    row := 2
    column := 0
    index := 2
    start_sentinel := 0
    end_sentinel := 4 }

/-- Content `"ab\ncd"` with the cursor on the `'c'`, the first character of
row 2 (reached by the five inserts and two calls of `backward()`). -/
def ab_cd_on_c : Editor :=
  { buffer := [NUL, 'a', 'b', '\n', 'c', 'd', NUL]
    cursor := 4
    row := 2
    column := 0
    index := 3
    start_sentinel := 0
    end_sentinel := 6 }

/-- Content `"abc\nd"` with the cursor on the `'c'`, row 1 and column 2
(reached by the five inserts and three calls of `backward()`). -/
def abc_d_on_c : Editor :=
  { buffer := [NUL, 'a', 'b', 'c', '\n', 'd', NUL]
    cursor := 3
    row := 1
    column := 2
    index := 2
    start_sentinel := 0
    end_sentinel := 6 }

/-- Content `"abc\nde"` with the cursor on the `'c'`, row 1 and column 2. -/
def abc_de_on_c : Editor :=
  { buffer := [NUL, 'a', 'b', 'c', '\n', 'd', 'e', NUL]
    cursor := 3
    row := 1
    column := 2
    index := 2
    start_sentinel := 0
    end_sentinel := 7 }

/-- Length of row `r` (counted from 0) of the content `s`: the number of
characters between the `r`-th line terminator and the next one (or the end of
the content). -/
def row_length : List Char → Nat → Nat
  | s, 0 => (s.takeWhile (fun c => decide (c ≠ '\n'))).length
  | s, r + 1 => row_length ((s.dropWhile (fun c => decide (c ≠ '\n'))).drop 1) r

/-- Representation invariant of `Editor`. -/
def Inv (e : Editor) : Prop := ∃ rp post, e = canon rp post

/-- The state satisfies the representation invariant and its visible content
is `s`. -/
def HasContent (s : List Char) (e : Editor) : Prop :=
  ∃ rp post, e = canon rp post ∧ rp.reverse ++ post = s

/-- A state with the buffer of content `before ++ after`, the cursor just
after `before`, and arbitrary values in the `row`, `column` and `index`
fields. -/
def with_fields (before after : List Char) (row column index : Int) : Editor :=
  { buffer := NUL :: (before ++ (after ++ [NUL]))
    cursor := before.length + 1
    row := row
    column := column
    index := index
    start_sentinel := 0
    end_sentinel := before.length + after.length + 1 }

/-! The doubly-linked list of `p4-editor/List.hpp`

`List<T>` is embedded as `LinkedList T`.  A `Node *` is `Option Nat`: `none` is
`nullptr` and `some a` is the address `a`; the memory holding the nodes of one
list object is `heap`, where `heap a = none` means no live node at `a` (a
pointer to such an address dangles).  `delete` empties the address.  `new`
returns an address that holds no live node; which one is up to the allocator
(it may be the address of a node deleted before, so that a pointer left
dangling refers to the new node), and therefore every operation that
allocates takes the address `new` returns as an argument.  `fresh` is a bound
above every address `new` has returned: it is only used to bound traversals,
since a traversal that visits more than `fresh` live nodes visits one of them
twice and never ends.  Reading through a null or dangling pointer is
`Fault.undefined`.  `sz` is a `Nat` (no overflow of `size_t`). -/

/-- A node of the list: `struct Node { Node *next; Node *prev; T datum; }`. -/
structure Node (T : Type) where
  next : Option Nat
  prev : Option Nat
  datum : T

/-- The private state of `class List<T>`, with the memory of its nodes. -/
structure LinkedList (T : Type) where
  heap : Nat → Option (Node T)
  fresh : Nat
  first : Option Nat
  last : Option Nat
  sz : Nat

namespace LinkedList

variable {T : Type}

/-- The memory `heap` with the contents of address `a` replaced by `n`. -/
def store (heap : Nat → Option (Node T)) (a : Nat) (n : Option (Node T)) :
    Nat → Option (Node T) :=
  fun k => if k = a then n else heap k

/-- The node a pointer refers to; undefined for a null or dangling pointer. -/
def load (heap : Nat → Option (Node T)) (p : Option Nat) : Except Fault (Node T) :=
  match p with
  | none => .error .undefined
  | some a =>
    match heap a with
    | none => .error .undefined
    | some n => .ok n

/-- Embedding of `List::List()`. -/
def ctor : LinkedList T :=
  { heap := fun _ => none, fresh := 0, first := none, last := none, sz := 0 }

/-- Embedding of `List::empty`. -/
def empty (l : LinkedList T) : Bool := l.sz == 0

/-- Embedding of `List::size`. -/
def size (l : LinkedList T) : Int := l.sz

/-- Embedding of `List::front`. -/
def front (l : LinkedList T) : Except Fault T :=
  if l.empty then .error .assertion
  else
    match load l.heap l.first with
    | .error f => .error f
    | .ok n => .ok n.datum

/-- Embedding of `List::back`. -/
def back (l : LinkedList T) : Except Fault T :=
  if l.empty then .error .assertion
  else
    match load l.heap l.last with
    | .error f => .error f
    | .ok n => .ok n.datum

/-- Embedding of `List::push_front`; `new_node` is the address returned by `new`. -/
def push_front (l : LinkedList T) (datum : T) (new_node : Nat) : Except Fault (LinkedList T) :=
  let heap1 := store l.heap new_node (some { next := l.first, prev := none, datum := datum })
  if l.empty then
    .ok { heap := heap1, fresh := max l.fresh (new_node + 1), first := some new_node,
          last := some new_node, sz := l.sz + 1 }
  else
    match l.first with
    | none => .error .undefined
    | some f =>
      match heap1 f with
      | none => .error .undefined
      | some fn =>
        .ok { heap := store heap1 f (some { fn with prev := some new_node })
              fresh := max l.fresh (new_node + 1), first := some new_node, last := l.last,
              sz := l.sz + 1 }

/-- Embedding of `List::push_back`; `new_node` is the address returned by `new`. -/
def push_back (l : LinkedList T) (datum : T) (new_node : Nat) : Except Fault (LinkedList T) :=
  let heap1 := store l.heap new_node (some { next := none, prev := l.last, datum := datum })
  if l.empty then
    .ok { heap := heap1, fresh := max l.fresh (new_node + 1), first := some new_node,
          last := some new_node, sz := l.sz + 1 }
  else
    match l.last with
    | none => .error .undefined
    | some t =>
      match heap1 t with
      | none => .error .undefined
      | some tn =>
        .ok { heap := store heap1 t (some { tn with next := some new_node })
              fresh := max l.fresh (new_node + 1), first := l.first, last := some new_node,
              sz := l.sz + 1 }

/-- Embedding of `List::pop_front`. -/
def pop_front (l : LinkedList T) : Except Fault (LinkedList T) :=
  if l.empty then .error .assertion
  else
    match l.first with
    | none => .error .undefined
    | some victim =>
      match l.heap victim with
      | none => .error .undefined
      | some vn =>
        match vn.next with
        | none =>
          .ok { heap := store l.heap victim none, fresh := l.fresh, first := none,
                last := l.last, sz := l.sz - 1 }
        | some f =>
          match l.heap f with
          | none => .error .undefined
          | some fn =>
            .ok { heap := store (store l.heap f (some { fn with prev := none })) victim none
                  fresh := l.fresh, first := some f, last := l.last, sz := l.sz - 1 }

/-- Embedding of `List::pop_back`. -/
def pop_back (l : LinkedList T) : Except Fault (LinkedList T) :=
  if l.empty then .error .assertion
  else
    match l.last with
    | none => .error .undefined
    | some victim =>
      match l.heap victim with
      | none => .error .undefined
      | some vn =>
        match vn.prev with
        | none =>
          .ok { heap := store l.heap victim none, fresh := l.fresh, first := l.first,
                last := none, sz := l.sz - 1 }
        | some t =>
          match l.heap t with
          | none => .error .undefined
          | some tn =>
            .ok { heap := store (store l.heap t (some { tn with next := none })) victim none
                  fresh := l.fresh, first := l.first, last := some t, sz := l.sz - 1 }

/-- The loop `while (!empty()) pop_front();` of `clear`, at most `fuel` iterations. -/
def clear_loop : Nat → LinkedList T → Except Fault (LinkedList T)
  | 0, l => if l.empty then .ok l else .error .fuel
  | fuel + 1, l =>
    if l.empty then .ok l
    else
      match l.pop_front with
      | .error f => .error f
      | .ok l1 => clear_loop fuel l1

/-- Embedding of `List::clear`; every iteration decrements `sz`, so `sz` iterations are
enough. -/
def clear (l : LinkedList T) : Except Fault (LinkedList T) := clear_loop l.sz l

/-- Embedding of `List::begin`: the iterator `Iterator(first)`. -/
def begin (l : LinkedList T) : Option Nat := l.first

/-- Embedding of `List::end`: the default iterator, holding `nullptr`. -/
def end_ : Option Nat := none

/-- Embedding of `Iterator::operator*`. -/
def Iterator_deref (l : LinkedList T) (it : Option Nat) : Except Fault T :=
  match load l.heap it with
  | .error f => .error f
  | .ok n => .ok n.datum

/-- Embedding of `Iterator::operator++`. -/
def Iterator_incr (l : LinkedList T) (it : Option Nat) : Except Fault (Option Nat) :=
  match it with
  | none => .error .assertion
  | some a =>
    match l.heap a with
    | none => .error .undefined
    | some n => .ok n.next

/-- Embedding of `Iterator::operator--`. -/
def Iterator_decr (l : LinkedList T) (it : Option Nat) : Except Fault (Option Nat) :=
  match it with
  | none => .error .assertion
  | some a =>
    match l.heap a with
    | none => .error .undefined
    | some n => .ok n.prev

/-- Embedding of `List::erase`, returning the list and the iterator. -/
def erase (l : LinkedList T) (i : Option Nat) : Except Fault (LinkedList T × Option Nat) :=
  if i = l.first then
    match l.pop_front with
    | .error f => .error f
    | .ok l1 => .ok (l1, l1.begin)
  else if i = l.last then
    match l.pop_back with
    | .error f => .error f
    | .ok l1 => .ok (l1, end_)
  else
    match i with
    | none => .error .undefined
    | some victim =>
      match l.heap victim with
      | none => .error .undefined
      | some vn =>
        match vn.prev with
        | none => .error .undefined
        | some p =>
          match l.heap p with
          | none => .error .undefined
          | some pn =>
            let heap1 := store l.heap p (some { pn with next := vn.next })
            match vn.next with
            | none => .error .undefined
            | some n =>
              match heap1 n with
              | none => .error .undefined
              | some nn =>
                let heap2 := store heap1 n (some { nn with prev := vn.prev })
                .ok ({ heap := store heap2 victim none, fresh := l.fresh, first := l.first,
                       last := l.last, sz := l.sz - 1 }, some n)

/-- Embedding of `List::insert`, returning the list and the iterator; `new_node` is the
address returned by `new`. -/
def insert (l : LinkedList T) (i : Option Nat) (datum : T) (new_node : Nat) :
    Except Fault (LinkedList T × Option Nat) :=
  if i = l.first then
    match l.push_front datum new_node with
    | .error f => .error f
    | .ok l1 => .ok (l1, l1.begin)
  else
    match i with
    | none => .error .undefined
    | some a =>
      match l.heap a with
      | none => .error .undefined
      | some an =>
        let heap1 := store l.heap new_node (some { next := i, prev := an.prev, datum := datum })
        match an.prev with
        | none => .error .undefined
        | some p =>
          match heap1 p with
          | none => .error .undefined
          | some pn =>
            let heap2 := store heap1 p (some { pn with next := some new_node })
            match heap2 a with
            | none => .error .undefined
            | some an2 =>
              .ok ({ heap := store heap2 a (some { an2 with prev := some new_node })
                     fresh := max l.fresh (new_node + 1), first := l.first, last := l.last,
                     sz := l.sz + 1 }, some new_node)

/-- The loop `for (it = other.begin(); it != other.end(); ++it) push_back(*it);` of
`copy_all`, at most `fuel` iterations; `alloc k` is the address `new` returns
for the node pushed onto a list of size `k`. -/
def copy_loop (other : LinkedList T) (alloc : Nat → Nat) :
    Nat → Option Nat → LinkedList T → Except Fault (LinkedList T)
  | _, none, l => .ok l
  | 0, some _, _ => .error .fuel
  | fuel + 1, some a, l =>
    match other.heap a with
    | none => .error .undefined
    | some n =>
      match l.push_back n.datum (alloc l.sz) with
      | .error f => .error f
      | .ok l1 => copy_loop other alloc fuel n.next l1

/-- Embedding of `List::copy_all`.  A traversal of `other` that visits more than
`other.fresh` nodes visits one twice and so never ends; `other.fresh` iterations are
enough otherwise. -/
def copy_all (l other : LinkedList T) (alloc : Nat → Nat) : Except Fault (LinkedList T) :=
  match l.clear with
  | .error f => .error f
  | .ok l0 => copy_loop other alloc other.fresh other.begin l0

/-- Embedding of the copy constructor `List(const List &other) : List()`. -/
def copy_ctor (other : LinkedList T) (alloc : Nat → Nat) : Except Fault (LinkedList T) :=
  copy_all ctor other alloc

/-- Embedding of `List::operator=`: `temp` is a copy of `other`, the fields are swapped, and
the destructor of `temp` clears the nodes the list held before. -/
def assign (l other : LinkedList T) (alloc : Nat → Nat) : Except Fault (LinkedList T) :=
  match copy_ctor other alloc with
  | .error f => .error f
  | .ok temp =>
    match l.clear with
    | .error f => .error f
    | .ok _ => .ok temp

/-- The traversal `for (it = begin(); it != end(); ++it)` collecting `*it`, at most
`fuel` iterations. -/
def elems_loop (l : LinkedList T) : Nat → Option Nat → Except Fault (List T)
  | _, none => .ok []
  | 0, some _ => .error .fuel
  | fuel + 1, some a =>
    match l.heap a with
    | none => .error .undefined
    | some n =>
      match elems_loop l fuel n.next with
      | .error f => .error f
      | .ok xs => .ok (n.datum :: xs)

/-- The element sequence of the list: what a traversal from `begin()` to `end()`
reads; `Fault.fuel` is a traversal caught in a cycle of nodes. -/
def elems (l : LinkedList T) : Except Fault (List T) := elems_loop l l.fresh l.begin

/-- The iterator obtained from `begin()` by `i` increments. -/
def iter_at (l : LinkedList T) : Nat → Except Fault (Option Nat)
  | 0 => .ok l.begin
  | i + 1 =>
    match iter_at l i with
    | .error f => .error f
    | .ok it => l.Iterator_incr it

end LinkedList

/-- The lists a program can hold after calling public member functions that
return: a new or copied list, and what any public mutator returns with, for any
iterator argument and any address `new` can return (one holding no live
node). -/
inductive ListReachable {T : Type} : LinkedList T → Prop where
  | ctor : ListReachable LinkedList.ctor
  | push_front {l l1 : LinkedList T} (v : T) (a : Nat) :
      ListReachable l → l.heap a = none → l.push_front v a = .ok l1 → ListReachable l1
  | push_back {l l1 : LinkedList T} (v : T) (a : Nat) :
      ListReachable l → l.heap a = none → l.push_back v a = .ok l1 → ListReachable l1
  | pop_front {l l1 : LinkedList T} :
      ListReachable l → l.pop_front = .ok l1 → ListReachable l1
  | pop_back {l l1 : LinkedList T} :
      ListReachable l → l.pop_back = .ok l1 → ListReachable l1
  | clear {l l1 : LinkedList T} :
      ListReachable l → l.clear = .ok l1 → ListReachable l1
  | insert {l : LinkedList T} {r : LinkedList T × Option Nat} (i : Option Nat) (v : T)
      (a : Nat) :
      ListReachable l → l.heap a = none → l.insert i v a = .ok r → ListReachable r.1
  | erase {l : LinkedList T} {r : LinkedList T × Option Nat} (i : Option Nat) :
      ListReachable l → l.erase i = .ok r → ListReachable r.1
  | copy_ctor {l l1 : LinkedList T} (alloc : Nat → Nat) :
      ListReachable l → Function.Injective alloc → l.copy_ctor alloc = .ok l1 →
      ListReachable l1
  | assign {l other l1 : LinkedList T} (alloc : Nat → Nat) :
      ListReachable l → ListReachable other → Function.Injective alloc →
      l.assign other alloc = .ok l1 → ListReachable l1

/-- The list after `push_back(3)` on a new list (the tests'
`create_singleton_list_int`): one node at address 0. -/
def singleton_3 : LinkedList Int :=
  { heap := LinkedList.store (fun _ => none) 0 (some { next := none, prev := none, datum := 3 })
    fresh := 1, first := some 0, last := some 0, sz := 1 }

/-- The list after `push_back(3); pop_back();` on a new list: the node at
address 0 is deleted and `first` still holds its address. -/
def popped_back : LinkedList Int :=
  { heap := LinkedList.store singleton_3.heap 0 none
    fresh := 1, first := some 0, last := none, sz := 0 }

/-- The list after `push_back(3); pop_back(); push_front(2);` when `new` returns
the address 0 of the deleted node again: the `next` of the new node, copied
from `first`, is the address of the new node itself. -/
def refilled_same : LinkedList Int :=
  { heap := LinkedList.store popped_back.heap 0 (some { next := some 0, prev := none, datum := 2 })
    fresh := 1, first := some 0, last := some 0, sz := 1 }

/-- The list after `push_back(3); pop_back(); push_front(2);` when `new` returns
another address, 1: the `next` of the new node, copied from `first`, is the
address 0 of the deleted node. -/
def refilled_other : LinkedList Int :=
  { heap := LinkedList.store popped_back.heap 1 (some { next := some 0, prev := none, datum := 2 })
    fresh := 2, first := some 1, last := some 1, sz := 1 }

/-- The list `[1]` after `push_back(1)` on a new list. -/
def list_1 : LinkedList Int :=
  { heap := LinkedList.store (fun _ => none) 0 (some { next := none, prev := none, datum := 1 })
    fresh := 1, first := some 0, last := some 0, sz := 1 }

/-- The list `[1, 2]` after `push_back(2)` on `list_1`. -/
def list_12 : LinkedList Int :=
  { heap := LinkedList.store
      (LinkedList.store list_1.heap 1 (some { next := none, prev := some 0, datum := 2 }))
      0 (some { next := some 1, prev := none, datum := 1 })
    fresh := 2, first := some 0, last := some 1, sz := 2 }

/-- The list `[1, 2, 3]` after `push_back(3)` on `list_12` (the tests'
`create_list_int`): nodes at addresses 0, 1 and 2. -/
def list_123 : LinkedList Int :=
  { heap := LinkedList.store
      (LinkedList.store list_12.heap 2 (some { next := none, prev := some 1, datum := 3 }))
      1 (some { next := some 2, prev := some 0, datum := 2 })
    fresh := 3, first := some 0, last := some 2, sz := 3 }

/-! The buffer under the representation invariant -/

theorem NUL_ne_newline : NUL ≠ '\n' := by decide

theorem buffer_at_cursor (rp : List Char) (c : Char) (rest : List Char) :
    (NUL :: (rp.reverse ++ c :: rest))[rp.length + 1]? = some c := by
  rw [List.getElem?_cons_succ, List.getElem?_append_right (by simp)]
  simp

theorem compute_column_loop_succ (e : Editor) (a : Nat) (col : Int) :
    compute_column_loop e (a + 1) col =
      if a + 1 = e.start_sentinel then .ok (a + 1, col)
      else
        match e.buffer[a]? with
        | none => .error .undefined
        | some c => if c ≠ '\n' then compute_column_loop e a (col + 1) else .ok (a, col) := by
  rw [compute_column_loop]

theorem compute_column_loop_scan (e : Editor) (hs : e.start_sentinel = 0) :
    ∀ (rp rest : List Char) (col : Int), e.buffer = NUL :: (rp.reverse ++ rest) →
      ∃ aux c1, compute_column_loop e (rp.length + 1) col = .ok (aux, c1) ∧
        ((aux = 0 ∧ c1 = col + ((rp.takeWhile (fun c => decide (c ≠ '\n'))).length : Nat) + 1) ∨
         (aux ≠ 0 ∧ c1 = col + ((rp.takeWhile (fun c => decide (c ≠ '\n'))).length : Nat))) := by
  intro rp
  induction rp with
  | nil =>
    intro rest col hb
    refine ⟨0, col + 1, ?_, Or.inl ⟨rfl, by simp⟩⟩
    have h0 : compute_column_loop e 0 (col + 1) = .ok (0, col + 1) := by
      rw [compute_column_loop]; simp [hs]
    rw [List.length_nil, compute_column_loop_succ, h0]
    simp [hs, hb, NUL_ne_newline]
  | cons c rp ih =>
    intro rest col hb
    have hb2 : e.buffer = NUL :: (rp.reverse ++ c :: rest) := by
      rw [hb]; simp
    have hc : e.buffer[rp.length + 1]? = some c := by
      rw [hb2]; exact buffer_at_cursor rp c rest
    rw [List.length_cons, compute_column_loop_succ]
    by_cases hn : c = '\n'
    · refine ⟨rp.length + 1, col, ?_, Or.inr ⟨by omega, by simp [hn]⟩⟩
      simp [hs, hc, hn]
    · obtain ⟨aux, c1, h1, h2⟩ := ih (c :: rest) (col + 1) hb2
      refine ⟨aux, c1, ?_, ?_⟩
      · simp [hs, hc, hn, h1]
      · rcases h2 with ⟨ha, hc1⟩ | ⟨ha, hc1⟩
        · left; refine ⟨ha, ?_⟩; simp [hn, hc1]; ring
        · right; refine ⟨ha, ?_⟩; simp [hn, hc1]; ring

theorem compute_column_scan (e : Editor) (rp rest : List Char)
    (hb : e.buffer = NUL :: (rp.reverse ++ rest)) (hs : e.start_sentinel = 0)
    (hc : e.cursor = rp.length + 1) :
    e.compute_column = .ok ((rp.takeWhile (fun c => decide (c ≠ '\n'))).length : Nat) := by
  obtain ⟨aux, c1, h1, h2⟩ := compute_column_loop_scan e hs rp rest 0 hb
  unfold compute_column
  rw [hc, hs, h1]
  rcases h2 with ⟨ha, hc1⟩ | ⟨ha, hc1⟩
  · simp [ha, hc1]
  · simp [ha, hc1]

theorem compute_column_mk (rp rest : List Char) (row column index : Int) (en : Nat) :
    compute_column ⟨NUL :: (rp.reverse ++ rest), rp.length + 1, row, column, index, 0, en⟩ =
      .ok ((rp.takeWhile (fun c => !decide (c = '\n'))).length : Nat) := by
  have h := compute_column_scan ⟨NUL :: (rp.reverse ++ rest), rp.length + 1, row, column, index, 0, en⟩
    rp rest rfl rfl rfl
  simpa using h

theorem getElem_reverse_append (rp : List Char) (c : Char) (rest : List Char)
    (h : rp.length < (rp.reverse ++ c :: rest).length) :
    (rp.reverse ++ c :: rest)[rp.length] = c := by
  have h2 := buffer_at_cursor rp c rest
  rw [List.getElem?_cons_succ, List.getElem?_eq_getElem h] at h2
  exact Option.some.inj h2

/-! The single-step operations on states satisfying the invariant -/

theorem canon_deref_cursor (rp : List Char) (c : Char) (post : List Char) :
    (canon rp (c :: post)).deref (canon rp (c :: post)).cursor = .ok c := by
  have h := buffer_at_cursor rp c (post ++ [NUL])
  simp only [deref, canon, List.cons_append]
  rw [h]

theorem canon_deref_end (rp : List Char) :
    (canon rp []).deref (canon rp []).cursor = .ok NUL := by
  have h := buffer_at_cursor rp NUL []
  simp only [deref, canon, List.nil_append]
  rw [h]

theorem canon_compute_column (rp post : List Char) :
    (canon rp post).compute_column = .ok (canon rp post).column :=
  compute_column_scan (canon rp post) rp (post ++ [NUL]) rfl rfl rfl

theorem forward_canon_end (rp : List Char) :
    (canon rp []).forward = .ok (canon rp [], false) := by
  simp [forward, is_at_end, canon]

theorem forward_canon_cons (rp : List Char) (c : Char) (post : List Char) :
    (canon rp (c :: post)).forward = .ok (canon (c :: rp) post, true) := by
  unfold forward
  rw [canon_deref_cursor]
  by_cases hn : c = '\n'
  · subst hn
    simp [is_at_end, canon]
    omega
  · have hn2 : ¬ ('\n' = c) := fun h => hn h.symm
    simp [is_at_end, canon, hn, List.count_cons, hn2]
    omega

theorem backward_canon_nil (post : List Char) :
    (canon [] post).backward = .ok (canon [] post, false) := by
  simp [backward, is_at_start, canon]

theorem canon_not_at_start (rp : List Char) (c : Char) (post : List Char) :
    (canon (c :: rp) post).is_at_start = false := by
  by_cases hn : c = '\n'
  · subst hn
    simp [is_at_start, canon]
    intro h
    omega
  · simp [is_at_start, canon, hn]
    intro _
    omega

theorem backward_canon_cons (rp : List Char) (c : Char) (post : List Char) :
    (canon (c :: rp) post).backward = .ok (canon rp (c :: post), true) := by
  unfold backward
  rw [canon_not_at_start]
  by_cases hn : c = '\n'
  · subst hn
    simp only [canon, List.length_cons, deref]
    simp [getElem_reverse_append, compute_column_mk]
    omega
  · have hn2 : ¬ ('\n' = c) := fun h => hn h.symm
    simp only [canon, List.length_cons, deref]
    simp [getElem_reverse_append, hn, hn2, List.count_cons]
    omega

theorem take_reverse_append (rp rest : List Char) :
    (rp.reverse ++ rest).take rp.length = rp.reverse := by
  have h : rp.length = rp.reverse.length := by simp
  rw [h, List.take_left]

theorem drop_reverse_append (rp rest : List Char) :
    (rp.reverse ++ rest).drop rp.length = rest := by
  have h : rp.length = rp.reverse.length := by simp
  rw [h, List.drop_left]

theorem eraseIdx_reverse_append (rp : List Char) (c : Char) (rest : List Char) :
    (rp.reverse ++ c :: rest).eraseIdx rp.length = rp.reverse ++ rest := by
  rw [List.eraseIdx_eq_take_drop_succ, take_reverse_append]
  have h : (rp.reverse ++ c :: rest).drop (rp.length + 1) = rest := by
    rw [← List.drop_drop, drop_reverse_append]
    rfl
  rw [h]

theorem insert_canon (rp post : List Char) (c : Char) :
    (canon rp post).insert c = canon (c :: rp) post := by
  by_cases hn : c = '\n'
  · subst hn
    simp [Editor.insert, canon, after_insert, take_reverse_append, drop_reverse_append]
    omega
  · have hn2 : ¬ ('\n' = c) := fun h => hn h.symm
    simp [Editor.insert, canon, after_insert, take_reverse_append, drop_reverse_append, hn, hn2,
      List.count_cons]
    omega

theorem remove_canon_end (rp : List Char) :
    (canon rp []).remove = .ok (canon rp [], false) := by
  simp [remove, is_at_end, canon]

theorem remove_canon_cons (rp : List Char) (c : Char) (post : List Char) :
    (canon rp (c :: post)).remove = .ok (canon rp post, true) := by
  unfold remove
  rw [canon_deref_cursor, canon_compute_column]
  simp [is_at_end, canon, after_erase, eraseIdx_reverse_append]
  omega

theorem stringify_loop_run (xs : List Char) :
    ∀ (y : Char) (rest : List Char) (it : Nat) (result : String),
      stringify_loop (it + xs.length) (xs ++ y :: rest) it result =
        .ok (String.mk (result.data ++ xs)) := by
  induction xs with
  | nil =>
    intro y rest it result
    simp [stringify_loop]
  | cons x xs ih =>
    intro y rest it result
    have h : it + (x :: xs).length = (it + 1) + xs.length := by
      simp; omega
    rw [h, List.cons_append, stringify_loop]
    have hne : ¬ (it = it + 1 + xs.length) := by omega
    rw [if_neg hne, ih]
    simp [String.push]

theorem stringify_canon (rp post : List Char) :
    (canon rp post).stringify = .ok (String.mk (rp.reverse ++ post)) := by
  unfold stringify
  have hlen : ¬ ((canon rp post).buffer.length ≤ (canon rp post).start_sentinel) := by
    simp [canon]
  rw [if_neg hlen]
  have hdrop : (canon rp post).buffer.drop ((canon rp post).start_sentinel + 1) =
      (rp.reverse ++ post) ++ NUL :: [] := by
    simp [canon]
  have hen : (canon rp post).end_sentinel =
      ((canon rp post).start_sentinel + 1) + (rp.reverse ++ post).length := by
    simp [canon]; omega
  rw [hdrop, hen, stringify_loop_run]
  simp

/-! Preservation of the invariant -/

theorem inv_ctor : Inv ctor := ⟨[], [], rfl⟩

theorem forward_total {e : Editor} (h : Inv e) : ∃ r, e.forward = .ok r ∧ Inv r.1 := by
  obtain ⟨rp, post, rfl⟩ := h
  cases post with
  | nil => exact ⟨_, forward_canon_end rp, rp, [], rfl⟩
  | cons c post => exact ⟨_, forward_canon_cons rp c post, c :: rp, post, rfl⟩

theorem backward_total {e : Editor} (h : Inv e) : ∃ r, e.backward = .ok r ∧ Inv r.1 := by
  obtain ⟨rp, post, rfl⟩ := h
  cases rp with
  | nil => exact ⟨_, backward_canon_nil post, [], post, rfl⟩
  | cons c rp => exact ⟨_, backward_canon_cons rp c post, rp, c :: post, rfl⟩

theorem remove_total {e : Editor} (h : Inv e) : ∃ r, e.remove = .ok r ∧ Inv r.1 := by
  obtain ⟨rp, post, rfl⟩ := h
  cases post with
  | nil => exact ⟨_, remove_canon_end rp, rp, [], rfl⟩
  | cons c post => exact ⟨_, remove_canon_cons rp c post, rp, post, rfl⟩

theorem inv_forward {e : Editor} {r : Editor × Bool} (h : Inv e) (hr : e.forward = .ok r) :
    Inv r.1 := by
  obtain ⟨r2, h2, hi⟩ := forward_total h
  rw [hr] at h2
  cases h2
  exact hi

theorem inv_backward {e : Editor} {r : Editor × Bool} (h : Inv e) (hr : e.backward = .ok r) :
    Inv r.1 := by
  obtain ⟨r2, h2, hi⟩ := backward_total h
  rw [hr] at h2
  cases h2
  exact hi

theorem inv_remove {e : Editor} {r : Editor × Bool} (h : Inv e) (hr : e.remove = .ok r) :
    Inv r.1 := by
  obtain ⟨r2, h2, hi⟩ := remove_total h
  rw [hr] at h2
  cases h2
  exact hi

theorem inv_insert {e : Editor} (h : Inv e) (c : Char) : Inv (e.insert c) := by
  obtain ⟨rp, post, rfl⟩ := h
  exact ⟨c :: rp, post, insert_canon rp post c⟩

theorem inv_set_column {e : Editor} (h : Inv e) {col : Int} (hc : e.compute_column = .ok col) :
    { e with column := col } = e := by
  obtain ⟨rp, post, rfl⟩ := h
  rw [canon_compute_column] at hc
  cases hc
  rfl

theorem inv_move_to_row_start (fuel : Nat) :
    ∀ {e e1 : Editor}, Inv e → move_to_row_start fuel e = .ok e1 → Inv e1 := by
  induction fuel with
  | zero =>
    intro e e1 h hr
    unfold move_to_row_start at hr
    split at hr
    · cases hr
    · cases hr; exact h
  | succ n ih =>
    intro e e1 h hr
    unfold move_to_row_start at hr
    split at hr
    · obtain ⟨r, hb, hi⟩ := backward_total h
      rw [hb] at hr
      exact ih hi hr
    · cases hr; exact h

theorem inv_move_to_row_end (fuel : Nat) :
    ∀ {e e1 : Editor}, Inv e → move_to_row_end fuel e = .ok e1 → Inv e1 := by
  induction fuel with
  | zero =>
    intro e e1 h hr
    unfold move_to_row_end at hr
    cases hd : e.deref e.cursor with
    | error f => rw [hd] at hr; cases hr
    | ok c =>
      rw [hd] at hr
      dsimp only at hr
      split at hr
      · cases hr
      · cases hr; exact h
  | succ n ih =>
    intro e e1 h hr
    unfold move_to_row_end at hr
    cases hd : e.deref e.cursor with
    | error f => rw [hd] at hr; cases hr
    | ok c =>
      rw [hd] at hr
      dsimp only at hr
      split at hr
      · obtain ⟨r, hb, hi⟩ := forward_total h
        rw [hb] at hr
        exact ih hi hr
      · cases hr; exact h

theorem inv_move_to_column_fwd (n : Int) (fuel : Nat) :
    ∀ {e e1 : Editor}, Inv e → move_to_column_fwd n fuel e = .ok e1 → Inv e1 := by
  induction fuel with
  | zero =>
    intro e e1 h hr
    unfold move_to_column_fwd at hr
    cases hd : e.deref e.cursor with
    | error f => rw [hd] at hr; cases hr
    | ok c =>
      rw [hd] at hr
      dsimp only at hr
      split at hr
      · cases hr
      · cases hr; exact h
  | succ k ih =>
    intro e e1 h hr
    unfold move_to_column_fwd at hr
    cases hd : e.deref e.cursor with
    | error f => rw [hd] at hr; cases hr
    | ok c =>
      rw [hd] at hr
      dsimp only at hr
      split at hr
      · obtain ⟨r, hb, hi⟩ := forward_total h
        rw [hb] at hr
        exact ih hi hr
      · cases hr; exact h

theorem inv_move_to_column_bwd (n : Int) (fuel : Nat) :
    ∀ {e e1 : Editor}, Inv e → move_to_column_bwd n fuel e = .ok e1 → Inv e1 := by
  induction fuel with
  | zero =>
    intro e e1 h hr
    unfold move_to_column_bwd at hr
    split at hr
    · cases hr
    · cases hr; exact h
  | succ k ih =>
    intro e e1 h hr
    unfold move_to_column_bwd at hr
    split at hr
    · obtain ⟨r, hb, hi⟩ := backward_total h
      rw [hb] at hr
      exact ih hi hr
    · cases hr; exact h

theorem inv_move_to_column {fuel : Nat} {n : Int} {e e1 : Editor} (h : Inv e)
    (hr : move_to_column fuel e n = .ok e1) : Inv e1 := by
  unfold move_to_column at hr
  split at hr
  · cases hr
  · cases hf : move_to_column_fwd n fuel e with
    | error f => rw [hf] at hr; cases hr
    | ok e2 =>
      rw [hf] at hr
      exact inv_move_to_column_bwd n fuel (inv_move_to_column_fwd n fuel h hf) hr

theorem inv_up {fuel : Nat} {e : Editor} {r : Editor × Bool} (h : Inv e)
    (hr : up fuel e = .ok r) : Inv r.1 := by
  unfold up at hr
  split at hr
  · cases hr; exact h
  · cases h1 : move_to_row_start fuel e with
    | error f => rw [h1] at hr; cases hr
    | ok e1 =>
      have i1 := inv_move_to_row_start fuel h h1
      obtain ⟨r2, h2, i2⟩ := backward_total i1
      rw [h1] at hr
      dsimp only at hr
      rw [h2] at hr
      dsimp only at hr
      cases h3 : r2.1.compute_column with
      | error f => rw [h3] at hr; cases hr
      | ok col =>
        rw [h3] at hr
        dsimp only at hr
        rw [inv_set_column i2 h3] at hr
        cases h4 : move_to_column fuel r2.1 e.column with
        | error f => rw [h4] at hr; cases hr
        | ok e4 =>
          rw [h4] at hr
          cases hr
          exact inv_move_to_column i2 h4

theorem inv_down {fuel : Nat} {e : Editor} {r : Editor × Bool} (h : Inv e)
    (hr : down fuel e = .ok r) : Inv r.1 := by
  unfold down at hr
  split at hr
  · cases hr; exact h
  · cases h1 : move_to_row_end fuel e with
    | error f => rw [h1] at hr; cases hr
    | ok e1 =>
      have i1 := inv_move_to_row_end fuel h h1
      obtain ⟨r2, h2, i2⟩ := forward_total i1
      rw [h1] at hr
      dsimp only at hr
      rw [h2] at hr
      dsimp only at hr
      cases h3 : r2.1.compute_column with
      | error f => rw [h3] at hr; cases hr
      | ok col =>
        rw [h3] at hr
        dsimp only at hr
        rw [inv_set_column i2 h3] at hr
        cases h4 : move_to_column fuel r2.1 e.column with
        | error f => rw [h4] at hr; cases hr
        | ok e4 =>
          rw [h4] at hr
          cases hr
          exact inv_move_to_column i2 h4

theorem reachable_inv {e : Editor} (h : Reachable e) : Inv e := by
  induction h with
  | ctor => exact inv_ctor
  | forward _ hr ih => exact inv_forward ih hr
  | backward _ hr ih => exact inv_backward ih hr
  | insert c _ ih => exact inv_insert ih c
  | remove _ hr ih => exact inv_remove ih hr
  | move_to_row_start fuel _ hr ih => exact inv_move_to_row_start fuel ih hr
  | move_to_row_end fuel _ hr ih => exact inv_move_to_row_end fuel ih hr
  | move_to_column fuel n _ hr ih => exact inv_move_to_column ih hr
  | up fuel _ hr ih => exact inv_up ih hr
  | down fuel _ hr ih => exact inv_down ih hr

/-! Observations on states satisfying the invariant -/

theorem visible_before_canon (rp post : List Char) :
    visible_before (canon rp post) = rp.reverse := by
  simp [visible_before, canon, take_reverse_append]

theorem newlines_reverse (rp : List Char) : newlines rp.reverse = rp.count '\n' := by
  simp [newlines]

theorem chars_since_newline_reverse (rp : List Char) :
    chars_since_newline rp.reverse =
      (rp.takeWhile (fun c => decide (c ≠ '\n'))).length := by
  simp [chars_since_newline]

theorem foldl_insert_canon (S : List Char) :
    ∀ rp : List Char, S.foldl Editor.insert (canon rp []) = canon (S.reverse ++ rp) [] := by
  induction S with
  | nil => intro rp; rfl
  | cons c S ih =>
    intro rp
    rw [List.foldl_cons, insert_canon, ih]
    simp

/-! Round trip and size -/

/-- C1: for every string `S`, constructing an `Editor` and calling `insert(c)`
for each character `c` of `S` in order makes `stringify()` return exactly `S`. -/
theorem stringify_after_inserts (S : String) :
    (S.data.foldl Editor.insert ctor).stringify = .ok S := by
  have h := foldl_insert_canon S.data []
  have hc : ctor = canon [] [] := rfl
  rw [hc, h, stringify_canon]
  simp

/-- C2: `size()` is `buffer.size()`, which counts the two sentinel nodes: a
newly constructed `Editor` has `size() == 2`, and after the `N` inserts that
build a string of length `N` it is `N + 2`. -/
theorem size_counts_sentinels :
    ctor.size = 2 ∧ ∀ S : String, (S.data.foldl Editor.insert ctor).size = S.length + 2 := by
  refine ⟨rfl, ?_⟩
  intro S
  have h := foldl_insert_canon S.data []
  have hc : ctor = canon [] [] := rfl
  rw [hc, h]
  have hl : S.length = S.data.length := rfl
  rw [hl]
  simp only [Editor.size, canon]
  simp
  omega

/-- C3: after `Editor E; E.insert('A');` the cursor is at the end with
`get_index() == 1` while `size() == 3`. -/
theorem index_at_end_is_not_size :
    (ctor.insert 'A').is_at_end = true ∧ (ctor.insert 'A').get_index = 1 ∧
      (ctor.insert 'A').size = 3 := by
  decide

theorem two_rows_reachable : Reachable two_rows :=
  Reachable.insert 'b' (Reachable.insert '\n' (Reachable.insert 'a' Reachable.ctor))

theorem on_first_char_reachable : Reachable on_first_char := by
  have h : (ctor.insert 'A').backward = .ok (on_first_char, true) := by decide
  exact Reachable.backward (Reachable.insert 'A' Reachable.ctor) h

/-! Invariants of the reachable states -/

/-- C4: in every reachable state `0 <= get_index() <= size()`, and `get_index()`
is the number of visible characters strictly before the cursor, which are a
prefix of what `stringify()` returns. -/
theorem index_consistency (e : Editor) (h : Reachable e) :
    0 ≤ e.get_index ∧ e.get_index ≤ e.size ∧
      e.get_index = ((visible_before e).length : Nat) ∧
      ∃ post, e.stringify = .ok (String.mk (visible_before e ++ post)) := by
  obtain ⟨rp, post, rfl⟩ := reachable_inv h
  rw [visible_before_canon, stringify_canon]
  refine ⟨?_, ?_, ?_, post, rfl⟩
  · simp [get_index, canon]
  · simp only [get_index, Editor.size, canon]
    simp
    omega
  · simp [get_index, canon]

theorem index_consistency_witness :
    Reachable two_rows ∧ 0 ≤ two_rows.get_index ∧ two_rows.get_index ≤ two_rows.size ∧
      two_rows.get_index = ((visible_before two_rows).length : Nat) ∧
      ∃ post, two_rows.stringify = .ok (String.mk (visible_before two_rows ++ post)) :=
  ⟨two_rows_reachable, index_consistency two_rows two_rows_reachable⟩

/-- C5: in every reachable state `get_row()` is 1 plus the number of line
terminators strictly before the cursor and `get_column()` is the number of
characters strictly before the cursor that come after the last of them (or after
the buffer start). -/
theorem row_column_consistency (e : Editor) (h : Reachable e) :
    e.get_row = 1 + (newlines (visible_before e) : Nat) ∧
      e.get_column = (chars_since_newline (visible_before e) : Nat) := by
  obtain ⟨rp, post, rfl⟩ := reachable_inv h
  rw [visible_before_canon, newlines_reverse, chars_since_newline_reverse]
  exact ⟨rfl, rfl⟩

theorem row_column_consistency_witness :
    Reachable two_rows ∧ two_rows.get_row = 1 + (newlines (visible_before two_rows) : Nat) ∧
      two_rows.get_column = (chars_since_newline (visible_before two_rows) : Nat) :=
  ⟨two_rows_reachable, row_column_consistency two_rows two_rows_reachable⟩

/-- C6: in every reachable state the cursor is strictly after the leading
sentinel, at or before the trailing sentinel and never `buffer.end()`;
`forward`, `backward` and `remove` return without a failed assertion, and
`backward` does not leave the cursor on the leading sentinel. -/
theorem cursor_range_safety (e : Editor) (h : Reachable e) :
    e.start_sentinel < e.cursor ∧ e.cursor ≤ e.end_sentinel ∧ e.cursor < e.buffer.length ∧
      (∃ r, e.forward = .ok r) ∧
      (∃ r, e.backward = .ok r ∧ r.1.start_sentinel < r.1.cursor) ∧
      (∃ r, e.remove = .ok r) := by
  have hi := reachable_inv h
  obtain ⟨r1, h1, _⟩ := forward_total hi
  obtain ⟨r2, h2, i2⟩ := backward_total hi
  obtain ⟨r3, h3, _⟩ := remove_total hi
  refine ⟨?_, ?_, ?_, ⟨r1, h1⟩, ⟨r2, h2, ?_⟩, ⟨r3, h3⟩⟩
  · obtain ⟨rp, post, rfl⟩ := hi
    simp [canon]
  · obtain ⟨rp, post, rfl⟩ := hi
    simp [canon]
  · obtain ⟨rp, post, rfl⟩ := hi
    simp [canon]
  · obtain ⟨rp, post, hr⟩ := i2
    rw [hr]
    simp [canon]

theorem cursor_range_safety_witness :
    Reachable on_first_char ∧
      on_first_char.start_sentinel < on_first_char.cursor ∧
      on_first_char.cursor ≤ on_first_char.end_sentinel ∧
      on_first_char.cursor < on_first_char.buffer.length ∧
      (∃ r, on_first_char.forward = .ok r) ∧
      (∃ r, on_first_char.backward = .ok r ∧ r.1.start_sentinel < r.1.cursor) ∧
      (∃ r, on_first_char.remove = .ok r) :=
  ⟨on_first_char_reachable, cursor_range_safety on_first_char on_first_char_reachable⟩

/-! Single steps of the cursor -/

theorem data_at_cursor_canon (rp : List Char) (c : Char) (post : List Char) :
    (canon rp (c :: post)).data_at_cursor = .ok c := by
  unfold data_at_cursor
  rw [canon_deref_cursor]
  simp [is_at_end, canon]

theorem is_at_end_canon_nil (rp : List Char) : (canon rp []).is_at_end = true := by
  simp [is_at_end, canon]

theorem is_at_end_canon_cons (rp : List Char) (c : Char) (post : List Char) :
    (canon rp (c :: post)).is_at_end = false := by
  simp [is_at_end, canon]

theorem canon_cons_row_column (rp : List Char) (c : Char) (post post2 : List Char) :
    (canon (c :: rp) post).index = (canon rp post2).index + 1 ∧
      (c = '\n' → (canon (c :: rp) post).row = (canon rp post2).row + 1 ∧
        (canon (c :: rp) post).column = 0) ∧
      (c ≠ '\n' → (canon (c :: rp) post).column = (canon rp post2).column + 1 ∧
        (canon (c :: rp) post).row = (canon rp post2).row) := by
  refine ⟨by simp [canon], ?_, ?_⟩
  · intro hn
    subst hn
    simp [canon]
    omega
  · intro hn
    have hn2 : ¬ ('\n' = c) := fun h => hn h.symm
    simp [canon, hn, hn2, List.count_cons]

/-- C7: in every reachable state `forward()` returns true exactly when
`is_at_end()` was false; when it returns false nothing changes; when it returns
true `get_index()` grows by 1 and, with `c` the character that was under the
cursor, a line terminator `c` makes `get_row()` grow by 1 and `get_column()`
zero, and any other `c` makes `get_column()` grow by 1 and leaves `get_row()`. -/
theorem forward_spec (e : Editor) (h : Reachable e) :
    ∃ r, e.forward = .ok r ∧ (r.2 = true ↔ e.is_at_end = false) ∧
      (r.2 = false → r.1 = e) ∧
      (r.2 = true → r.1.get_index = e.get_index + 1 ∧
        ∃ c, e.data_at_cursor = .ok c ∧
          (c = '\n' → r.1.get_row = e.get_row + 1 ∧ r.1.get_column = 0) ∧
          (c ≠ '\n' → r.1.get_column = e.get_column + 1 ∧ r.1.get_row = e.get_row)) := by
  obtain ⟨rp, post, rfl⟩ := reachable_inv h
  cases post with
  | nil =>
    refine ⟨_, forward_canon_end rp, ?_, ?_, ?_⟩
    · simp [is_at_end_canon_nil]
    · intro _; rfl
    · intro hf; cases hf
  | cons c post =>
    refine ⟨_, forward_canon_cons rp c post, ?_, ?_, ?_⟩
    · simp [is_at_end_canon_cons]
    · intro hf; cases hf
    · intro _
      have hc := canon_cons_row_column rp c post (c :: post)
      exact ⟨hc.1, c, data_at_cursor_canon rp c post, hc.2.1, hc.2.2⟩

theorem forward_spec_witness :
    Reachable on_first_char ∧
      ∃ r, on_first_char.forward = .ok r ∧ (r.2 = true ↔ on_first_char.is_at_end = false) ∧
        (r.2 = false → r.1 = on_first_char) ∧
        (r.2 = true → r.1.get_index = on_first_char.get_index + 1 ∧
          ∃ c, on_first_char.data_at_cursor = .ok c ∧
            (c = '\n' → r.1.get_row = on_first_char.get_row + 1 ∧ r.1.get_column = 0) ∧
            (c ≠ '\n' → r.1.get_column = on_first_char.get_column + 1 ∧
              r.1.get_row = on_first_char.get_row)) :=
  ⟨on_first_char_reachable, forward_spec on_first_char on_first_char_reachable⟩

/-- C8: in every reachable state `backward()` returns false exactly when
`get_index() == 0`, and then changes nothing; otherwise it returns true,
`get_index()` drops by 1 and, with `c` the character now under the cursor, a
line terminator `c` makes `get_row()` drop by 1 and `get_column()` the number of
characters between that terminator and the nearest preceding one (or the buffer
start), and any other `c` makes `get_column()` drop by 1 and leaves `get_row()`. -/
theorem backward_spec (e : Editor) (h : Reachable e) :
    ∃ r, e.backward = .ok r ∧ (r.2 = false ↔ e.get_index = 0) ∧
      (r.2 = false → r.1 = e) ∧
      (r.2 = true → r.1.get_index = e.get_index - 1 ∧
        ∃ c, r.1.data_at_cursor = .ok c ∧
          (c = '\n' → r.1.get_row = e.get_row - 1 ∧
            r.1.get_column = (chars_since_newline (visible_before r.1) : Nat)) ∧
          (c ≠ '\n' → r.1.get_column = e.get_column - 1 ∧ r.1.get_row = e.get_row)) := by
  obtain ⟨rp, post, rfl⟩ := reachable_inv h
  cases rp with
  | nil =>
    refine ⟨_, backward_canon_nil post, ?_, ?_, ?_⟩
    · simp [get_index, canon]
    · intro _; rfl
    · intro hf; cases hf
  | cons c rp =>
    refine ⟨_, backward_canon_cons rp c post, ?_, ?_, ?_⟩
    · simp [get_index, canon]
      omega
    · intro hf; cases hf
    · intro _
      have hc := canon_cons_row_column rp c post (c :: post)
      refine ⟨?_, c, data_at_cursor_canon rp c post, ?_, ?_⟩
      · simp only [get_index]; omega
      · intro hn
        refine ⟨?_, ?_⟩
        · have := (hc.2.1 hn).1
          simp only [get_row]; omega
        · simp only [visible_before_canon, chars_since_newline_reverse]
          rfl
      · intro hn
        have := hc.2.2 hn
        simp only [get_row, get_column]
        omega

theorem backward_spec_witness :
    Reachable two_rows ∧
      ∃ r, two_rows.backward = .ok r ∧ (r.2 = false ↔ two_rows.get_index = 0) ∧
        (r.2 = false → r.1 = two_rows) ∧
        (r.2 = true → r.1.get_index = two_rows.get_index - 1 ∧
          ∃ c, r.1.data_at_cursor = .ok c ∧
            (c = '\n' → r.1.get_row = two_rows.get_row - 1 ∧
              r.1.get_column = (chars_since_newline (visible_before r.1) : Nat)) ∧
            (c ≠ '\n' → r.1.get_column = two_rows.get_column - 1 ∧
              r.1.get_row = two_rows.get_row)) :=
  ⟨two_rows_reachable, backward_spec two_rows two_rows_reachable⟩

theorem on_second_row_reachable : Reachable on_second_row := by
  have h : two_rows.backward = .ok (on_second_row, true) := by decide
  exact Reachable.backward two_rows_reachable h

/-! Symmetries -/

/-- C9 (as stated, at a concrete state): with content `"A"` and the cursor on
the `'A'` the cursor is not at the end, yet `backward()` returns false and
changes nothing, and the following `forward()` moves to column 1, index 1. -/
theorem backward_forward_at_buffer_start :
    Reachable on_first_char ∧ on_first_char.is_at_end = false ∧
      on_first_char.backward = .ok (on_first_char, false) ∧
      on_first_char.forward =
        .ok ({ on_first_char with cursor := 2, column := 1, index := 1 }, true) :=
  ⟨on_first_char_reachable, by decide, by decide, by decide⟩

/-- C9 (amended): from every reachable state whose cursor is not at the end and
not at the start of the buffer (`get_index() > 0`), `backward()` followed by
`forward()` makes both calls return true and restores `get_row()`,
`get_column()` and `get_index()`. -/
theorem backward_forward_symmetry (e : Editor) (h : Reachable e)
    (hend : e.is_at_end = false) (hidx : 0 < e.get_index) :
    ∃ r1 r2, e.backward = .ok r1 ∧ r1.2 = true ∧ r1.1.forward = .ok r2 ∧ r2.2 = true ∧
      r2.1.get_row = e.get_row ∧ r2.1.get_column = e.get_column ∧
      r2.1.get_index = e.get_index := by
  obtain ⟨rp, post, rfl⟩ := reachable_inv h
  cases rp with
  | nil => simp [get_index, canon] at hidx
  | cons c rp =>
    exact ⟨_, _, backward_canon_cons rp c post, rfl, forward_canon_cons rp c post, rfl,
      rfl, rfl, rfl⟩

theorem backward_forward_symmetry_witness :
    Reachable on_second_row ∧ on_second_row.is_at_end = false ∧ 0 < on_second_row.get_index ∧
      ∃ r1 r2, on_second_row.backward = .ok r1 ∧ r1.2 = true ∧ r1.1.forward = .ok r2 ∧
        r2.2 = true ∧ r2.1.get_row = on_second_row.get_row ∧
        r2.1.get_column = on_second_row.get_column ∧
        r2.1.get_index = on_second_row.get_index :=
  ⟨on_second_row_reachable, by decide, by decide,
    backward_forward_symmetry on_second_row on_second_row_reachable (by decide) (by decide)⟩

/-- C10: for every reachable state and every character `c`, line terminator
included, `insert(c); backward(); remove()` has `backward()` and `remove()`
return true and restores `stringify()`, `size()`, `get_index()`, `get_row()` and
`get_column()` to their values before the insert. -/
theorem insert_backward_remove (e : Editor) (h : Reachable e) (c : Char) :
    ∃ r1 r2 s, (e.insert c).backward = .ok r1 ∧ r1.2 = true ∧
      r1.1.remove = .ok r2 ∧ r2.2 = true ∧
      e.stringify = .ok s ∧ r2.1.stringify = .ok s ∧ r2.1.size = e.size ∧
      r2.1.get_index = e.get_index ∧ r2.1.get_row = e.get_row ∧
      r2.1.get_column = e.get_column := by
  obtain ⟨rp, post, rfl⟩ := reachable_inv h
  rw [insert_canon]
  exact ⟨_, _, _, backward_canon_cons rp c post, rfl, remove_canon_cons rp c post, rfl,
    stringify_canon rp post, stringify_canon rp post, rfl, rfl, rfl, rfl⟩

theorem insert_backward_remove_witness :
    Reachable on_second_row ∧
      ∃ r1 r2 s, (on_second_row.insert '\n').backward = .ok r1 ∧ r1.2 = true ∧
        r1.1.remove = .ok r2 ∧ r2.2 = true ∧
        on_second_row.stringify = .ok s ∧ r2.1.stringify = .ok s ∧
        r2.1.size = on_second_row.size ∧ r2.1.get_index = on_second_row.get_index ∧
        r2.1.get_row = on_second_row.get_row ∧
        r2.1.get_column = on_second_row.get_column :=
  ⟨on_second_row_reachable,
    insert_backward_remove on_second_row on_second_row_reachable '\n'⟩

/-! Every state satisfying the invariant is reachable -/

theorem reachable_foldl_insert (S : List Char) :
    ∀ e : Editor, Reachable e → Reachable (S.foldl Editor.insert e) := by
  induction S with
  | nil => intro e h; exact h
  | cons c S ih => intro e h; exact ih _ (Reachable.insert c h)

theorem reachable_step_back (l : List Char) :
    ∀ rp post : List Char, Reachable (canon (l ++ rp) post) →
      Reachable (canon rp (l.reverse ++ post)) := by
  induction l with
  | nil => intro rp post h; exact h
  | cons x l ih =>
    intro rp post h
    have hb := Reachable.backward h (backward_canon_cons (l ++ rp) x post)
    have h2 := ih rp (x :: post) hb
    simpa using h2

theorem canon_reachable (rp post : List Char) : Reachable (canon rp post) := by
  have h1 : Reachable (canon (post.reverse ++ rp) []) := by
    have h := reachable_foldl_insert (rp.reverse ++ post) ctor Reachable.ctor
    have hc : ctor = canon [] [] := rfl
    rw [hc, foldl_insert_canon] at h
    simpa using h
  have h2 := reachable_step_back post.reverse rp [] h1
  simpa using h2

theorem ab_cd_on_c_eq : ab_cd_on_c = canon ['\n', 'b', 'a'] ['c', 'd'] := by decide

theorem abc_d_on_c_eq : abc_d_on_c = canon ['b', 'a'] ['c', '\n', 'd'] := by decide

theorem abc_de_on_c_eq : abc_de_on_c = canon ['b', 'a'] ['c', '\n', 'd', 'e'] := by decide

theorem on_first_char_eq : on_first_char = canon [] ['A'] := by decide

theorem on_second_row_eq : on_second_row = canon ['\n', 'a'] ['b'] := by decide

theorem ab_cd_on_c_reachable : Reachable ab_cd_on_c :=
  ab_cd_on_c_eq ▸ canon_reachable _ _

theorem abc_d_on_c_reachable : Reachable abc_d_on_c :=
  abc_d_on_c_eq ▸ canon_reachable _ _

theorem abc_de_on_c_reachable : Reachable abc_de_on_c :=
  abc_de_on_c_eq ▸ canon_reachable _ _

/-! Insertion and removal -/

/-- C11: for every reachable state with content `s` and `get_index() == i`,
after `insert(c)` the content is `s[0..i) ++ [c] ++ s[i..)`, `get_index()` is
`i + 1`, the at-end status and the character under the cursor are as before,
and a line terminator `c` makes `get_row()` grow by 1 and `get_column()` zero
while any other `c` makes `get_column()` grow by 1 and leaves `get_row()`. -/
theorem insert_spec (e : Editor) (h : Reachable e) (c : Char) :
    ∃ s, e.stringify = .ok s ∧
      (e.insert c).stringify =
        .ok (String.mk (s.data.take e.get_index.toNat ++ c :: s.data.drop e.get_index.toNat)) ∧
      (e.insert c).get_index = e.get_index + 1 ∧
      (e.insert c).is_at_end = e.is_at_end ∧
      (e.insert c).data_at_cursor = e.data_at_cursor ∧
      (c = '\n' → (e.insert c).get_row = e.get_row + 1 ∧ (e.insert c).get_column = 0) ∧
      (c ≠ '\n' → (e.insert c).get_column = e.get_column + 1 ∧
        (e.insert c).get_row = e.get_row) := by
  obtain ⟨rp, post, rfl⟩ := reachable_inv h
  rw [insert_canon]
  have hc := canon_cons_row_column rp c post post
  have hi : (canon rp post).get_index.toNat = rp.length := by
    simp [get_index, canon]
  refine ⟨_, stringify_canon rp post, ?_, hc.1, ?_, ?_, hc.2.1, hc.2.2⟩
  · rw [stringify_canon, hi]
    simp [take_reverse_append, drop_reverse_append]
  · simp [is_at_end, canon]
  · cases post with
    | nil => simp [data_at_cursor, is_at_end, canon]
    | cons x post => rw [data_at_cursor_canon, data_at_cursor_canon]

theorem insert_spec_witness :
    Reachable on_second_row ∧
      ∃ s, on_second_row.stringify = .ok s ∧
        (on_second_row.insert 'x').stringify =
          .ok (String.mk (s.data.take on_second_row.get_index.toNat ++
            'x' :: s.data.drop on_second_row.get_index.toNat)) ∧
        (on_second_row.insert 'x').get_index = on_second_row.get_index + 1 ∧
        (on_second_row.insert 'x').is_at_end = on_second_row.is_at_end ∧
        (on_second_row.insert 'x').data_at_cursor = on_second_row.data_at_cursor ∧
        ('x' = '\n' → (on_second_row.insert 'x').get_row = on_second_row.get_row + 1 ∧
          (on_second_row.insert 'x').get_column = 0) ∧
        ('x' ≠ '\n' → (on_second_row.insert 'x').get_column = on_second_row.get_column + 1 ∧
          (on_second_row.insert 'x').get_row = on_second_row.get_row) :=
  ⟨on_second_row_reachable, insert_spec on_second_row on_second_row_reachable 'x'⟩

/-- C12: in every reachable state, `remove()` at the end returns false and
changes nothing; otherwise it returns true, the content loses exactly the
character at position `get_index()`, `size()` drops by 1, `get_index()` and
`get_row()` are unchanged and `get_column()` is what the backward scan
`compute_column()` gives at the cursor, whatever character was removed. -/
theorem remove_spec (e : Editor) (h : Reachable e) :
    ∃ r, e.remove = .ok r ∧
      (e.is_at_end = true → r = (e, false)) ∧
      (e.is_at_end = false → r.2 = true ∧
        (∃ s, e.stringify = .ok s ∧
          r.1.stringify = .ok (String.mk (s.data.eraseIdx e.get_index.toNat))) ∧
        r.1.size = e.size - 1 ∧ r.1.get_index = e.get_index ∧ r.1.get_row = e.get_row ∧
        r.1.compute_column = .ok r.1.get_column ∧
        r.1.get_column = (chars_since_newline (visible_before r.1) : Nat)) := by
  obtain ⟨rp, post, rfl⟩ := reachable_inv h
  cases post with
  | nil =>
    refine ⟨_, remove_canon_end rp, fun _ => rfl, ?_⟩
    intro hf
    rw [is_at_end_canon_nil] at hf
    cases hf
  | cons c post =>
    refine ⟨_, remove_canon_cons rp c post, ?_, ?_⟩
    · intro hf
      rw [is_at_end_canon_cons] at hf
      cases hf
    · intro _
      have hi : (canon rp (c :: post)).get_index.toNat = rp.length := by
        simp [get_index, canon]
      refine ⟨rfl, ⟨_, stringify_canon rp (c :: post), ?_⟩, ?_, rfl, rfl,
        canon_compute_column rp post, ?_⟩
      · rw [stringify_canon, hi, eraseIdx_reverse_append]
      · simp only [Editor.size, canon]
        simp
        omega
      · simp only [visible_before_canon, chars_since_newline_reverse]
        rfl

theorem remove_spec_witness :
    Reachable abc_d_on_c ∧
      ∃ r, abc_d_on_c.remove = .ok r ∧
        (abc_d_on_c.is_at_end = true → r = (abc_d_on_c, false)) ∧
        (abc_d_on_c.is_at_end = false → r.2 = true ∧
          (∃ s, abc_d_on_c.stringify = .ok s ∧
            r.1.stringify = .ok (String.mk (s.data.eraseIdx abc_d_on_c.get_index.toNat))) ∧
          r.1.size = abc_d_on_c.size - 1 ∧ r.1.get_index = abc_d_on_c.get_index ∧
          r.1.get_row = abc_d_on_c.get_row ∧
          r.1.compute_column = .ok r.1.get_column ∧
          r.1.get_column = (chars_since_newline (visible_before r.1) : Nat)) :=
  ⟨abc_d_on_c_reachable, remove_spec abc_d_on_c abc_d_on_c_reachable⟩

/-! The new buffer and the character under the cursor -/

/-- C18: a newly constructed `Editor` has `is_at_end()`, `get_row() == 1`,
`get_column() == 0`, `get_index() == 0` and `stringify() == ""`, and on it
`backward()`, `forward()` and `remove()` each return false and leave the whole
state (row, column, index and content included) unchanged. -/
theorem new_editor_spec :
    ctor.is_at_end = true ∧ ctor.get_row = 1 ∧ ctor.get_column = 0 ∧ ctor.get_index = 0 ∧
      ctor.stringify = .ok "" ∧
      ctor.backward = .ok (ctor, false) ∧ ctor.forward = .ok (ctor, false) ∧
      ctor.remove = .ok (ctor, false) := by
  decide

/-- C19: in every reachable state that is not at the end, `data_at_cursor()`
returns the character at position `get_index()` of `stringify()`; and from
every reachable state, after `insert(c); backward()` it returns `c`. -/
theorem data_at_cursor_spec (e : Editor) (h : Reachable e) :
    (e.is_at_end = false →
      ∃ s c, e.stringify = .ok s ∧ e.data_at_cursor = .ok c ∧
        s.data[e.get_index.toNat]? = some c) ∧
    (∀ c : Char, ∃ r, (e.insert c).backward = .ok r ∧ r.1.data_at_cursor = .ok c) := by
  obtain ⟨rp, post, rfl⟩ := reachable_inv h
  constructor
  · intro hend
    cases post with
    | nil => rw [is_at_end_canon_nil] at hend; cases hend
    | cons c post =>
      refine ⟨_, c, stringify_canon rp (c :: post), data_at_cursor_canon rp c post, ?_⟩
      have hi : (canon rp (c :: post)).get_index.toNat = rp.length := by
        simp [get_index, canon]
      rw [hi]
      have hb := buffer_at_cursor rp c post
      rw [List.getElem?_cons_succ] at hb
      exact hb
  · intro c
    rw [insert_canon]
    exact ⟨_, backward_canon_cons rp c post, data_at_cursor_canon rp c post⟩

theorem data_at_cursor_spec_witness :
    Reachable on_second_row ∧
      (on_second_row.is_at_end = false →
        ∃ s c, on_second_row.stringify = .ok s ∧ on_second_row.data_at_cursor = .ok c ∧
          s.data[on_second_row.get_index.toNat]? = some c) ∧
      (∀ c : Char, ∃ r, (on_second_row.insert c).backward = .ok r ∧
        r.1.data_at_cursor = .ok c) :=
  ⟨on_second_row_reachable, data_at_cursor_spec on_second_row on_second_row_reachable⟩

/-! The loops, one iteration at a time -/

theorem move_to_row_start_done (fuel : Nat) (e : Editor) (h : ¬ e.column > 0) :
    move_to_row_start fuel e = .ok e := by
  cases fuel <;> simp [move_to_row_start, h]

theorem move_to_row_start_step (fuel : Nat) (e : Editor) (r : Editor × Bool)
    (h : e.column > 0) (hb : e.backward = .ok r) :
    move_to_row_start (fuel + 1) e = move_to_row_start fuel r.1 := by
  simp [move_to_row_start, h, hb]

theorem move_to_row_end_done (fuel : Nat) (e : Editor) (h : e.deref e.cursor = .ok '\n') :
    move_to_row_end fuel e = .ok e := by
  cases fuel <;> simp [move_to_row_end, h]

theorem move_to_row_end_step (fuel : Nat) (e : Editor) (c : Char) (r : Editor × Bool)
    (h : e.deref e.cursor = .ok c) (hc : c ≠ '\n') (hf : e.forward = .ok r) :
    move_to_row_end (fuel + 1) e = move_to_row_end fuel r.1 := by
  simp [move_to_row_end, h, hc, hf]

theorem move_to_row_end_zero (e : Editor) (c : Char)
    (h : e.deref e.cursor = .ok c) (hc : c ≠ '\n') :
    move_to_row_end 0 e = .error .fuel := by
  simp [move_to_row_end, h, hc]

theorem move_to_column_fwd_done (n : Int) (fuel : Nat) (e : Editor) (c : Char)
    (h : e.deref e.cursor = .ok c) (hc : ¬ (c ≠ '\n' ∧ e.column < n)) :
    move_to_column_fwd n fuel e = .ok e := by
  cases fuel <;> simp only [move_to_column_fwd, h, if_neg hc]

theorem move_to_column_fwd_step (n : Int) (fuel : Nat) (e : Editor) (c : Char)
    (r : Editor × Bool) (h : e.deref e.cursor = .ok c) (hc : c ≠ '\n' ∧ e.column < n)
    (hf : e.forward = .ok r) :
    move_to_column_fwd n (fuel + 1) e = move_to_column_fwd n fuel r.1 := by
  simp only [move_to_column_fwd, h, if_pos hc, hf]

theorem move_to_column_fwd_zero (n : Int) (e : Editor) (c : Char)
    (h : e.deref e.cursor = .ok c) (hc : c ≠ '\n' ∧ e.column < n) :
    move_to_column_fwd n 0 e = .error .fuel := by
  simp only [move_to_column_fwd, h, if_pos hc]

theorem move_to_column_bwd_done (n : Int) (fuel : Nat) (e : Editor) (h : ¬ e.column > n) :
    move_to_column_bwd n fuel e = .ok e := by
  cases fuel <;> simp [move_to_column_bwd, h]

theorem move_to_column_bwd_step (n : Int) (fuel : Nat) (e : Editor) (r : Editor × Bool)
    (h : e.column > n) (hb : e.backward = .ok r) :
    move_to_column_bwd n (fuel + 1) e = move_to_column_bwd n fuel r.1 := by
  simp [move_to_column_bwd, h, hb]

/-! The loops that test `*cursor != '\n'` never leave the trailing sentinel -/

theorem move_to_row_end_stuck (rp : List Char) :
    ∀ fuel, move_to_row_end fuel (canon rp []) = .error .fuel := by
  intro fuel
  induction fuel with
  | zero => exact move_to_row_end_zero _ NUL (canon_deref_end rp) NUL_ne_newline
  | succ n ih =>
    rw [move_to_row_end_step n _ NUL _ (canon_deref_end rp) NUL_ne_newline
      (forward_canon_end rp)]
    exact ih

theorem move_to_row_end_last_row (post : List Char) :
    ∀ (rp : List Char) (fuel : Nat), (∀ c ∈ post, c ≠ '\n') →
      move_to_row_end fuel (canon rp post) = .error .fuel := by
  induction post with
  | nil => intro rp fuel _; exact move_to_row_end_stuck rp fuel
  | cons c post ih =>
    intro rp fuel hp
    have hc : c ≠ '\n' := hp c (List.mem_cons_self c post)
    cases fuel with
    | zero => exact move_to_row_end_zero _ c (canon_deref_cursor rp c post) hc
    | succ n =>
      rw [move_to_row_end_step n _ c _ (canon_deref_cursor rp c post) hc
        (forward_canon_cons rp c post)]
      exact ih (c :: rp) n (fun x hx => hp x (List.mem_cons_of_mem c hx))

theorem move_to_column_fwd_stuck (n : Int) (rp : List Char) (h : (canon rp []).column < n) :
    ∀ fuel, move_to_column_fwd n fuel (canon rp []) = .error .fuel := by
  intro fuel
  induction fuel with
  | zero => exact move_to_column_fwd_zero n _ NUL (canon_deref_end rp) ⟨NUL_ne_newline, h⟩
  | succ k ih =>
    rw [move_to_column_fwd_step n k _ NUL _ (canon_deref_end rp) ⟨NUL_ne_newline, h⟩
      (forward_canon_end rp)]
    exact ih

theorem move_to_column_fwd_short_last_row (n : Int) (post : List Char) :
    ∀ (rp : List Char) (fuel : Nat), (∀ c ∈ post, c ≠ '\n') →
      (canon rp post).column + (post.length : Nat) < n →
      move_to_column_fwd n fuel (canon rp post) = .error .fuel := by
  induction post with
  | nil =>
    intro rp fuel _ hn
    exact move_to_column_fwd_stuck n rp (by simpa using hn) fuel
  | cons c post ih =>
    intro rp fuel hp hn
    have hc : c ≠ '\n' := hp c (List.mem_cons_self c post)
    have hcol := (canon_cons_row_column rp c post (c :: post)).2.2 hc
    have hlt : (canon rp (c :: post)).column < n := by
      simp only [List.length_cons] at hn
      omega
    cases fuel with
    | zero => exact move_to_column_fwd_zero n _ c (canon_deref_cursor rp c post) ⟨hc, hlt⟩
    | succ k =>
      rw [move_to_column_fwd_step n k _ c _ (canon_deref_cursor rp c post) ⟨hc, hlt⟩
        (forward_canon_cons rp c post)]
      refine ih (c :: rp) k (fun x hx => hp x (List.mem_cons_of_mem c hx)) ?_
      simp only [List.length_cons] at hn
      rw [hcol.1]
      push_cast at hn ⊢
      omega

/-! Rows that end at the end of the buffer -/

/-- C13: on a new `Editor`, and with content `"A"` and the cursor on the `'A'`,
`move_to_row_end()` has not returned after any number of iterations: at the
trailing sentinel `*cursor` is `0`, not a line terminator, and `forward()` no
longer moves. -/
theorem move_to_row_end_never_returns :
    (∀ fuel, move_to_row_end fuel ctor = .error .fuel) ∧
      (∀ fuel, move_to_row_end fuel on_first_char = .error .fuel) := by
  constructor
  · intro fuel
    exact move_to_row_end_stuck [] fuel
  · intro fuel
    rw [on_first_char_eq]
    exact move_to_row_end_last_row ['A'] [] fuel (by decide)

/-- C14: with content `"ab\ncd"` and the cursor at the start of row 2,
`move_to_column(5)` has not returned after any number of iterations. -/
theorem move_to_column_never_returns :
    ∀ fuel, move_to_column fuel ab_cd_on_c 5 = .error .fuel := by
  intro fuel
  rw [ab_cd_on_c_eq]
  unfold move_to_column
  rw [move_to_column_fwd_short_last_row 5 ['c', 'd'] ['\n', 'b', 'a'] fuel (by decide)
    (by decide)]
  rfl

/-- C17: with content `"a\nb"` and the cursor on the `'b'` (last row, not at
the end), `down()` has not returned after any number of iterations. -/
theorem down_never_returns_in_last_row :
    ∀ fuel, down fuel on_second_row = .error .fuel := by
  intro fuel
  rw [on_second_row_eq]
  unfold down
  rw [is_at_end_canon_cons, move_to_row_end_last_row ['b'] ['\n', 'a'] fuel (by decide)]
  rfl

/-- C16: with content `"abc\nd"` and the cursor on the `'c'` (row 1, column 2),
`down()` has not returned after any number of iterations, because row 2 is the
last row and is shorter than the column; with content `"abc\nde"` it returns
true at row 2, column 2. -/
theorem down_never_returns_onto_short_last_row :
    (∀ fuel, down fuel abc_d_on_c = .error .fuel) ∧
      down 2 abc_de_on_c =
        .ok ({ abc_de_on_c with cursor := 7, row := 2, column := 2, index := 6 }, true) := by
  constructor
  · intro fuel
    rw [abc_d_on_c_eq]
    unfold down
    rw [is_at_end_canon_cons]
    cases fuel with
    | zero =>
      rw [move_to_row_end_zero _ 'c' (canon_deref_cursor _ _ _) (by decide)]
      rfl
    | succ k =>
      rw [move_to_row_end_step k _ 'c' _ (canon_deref_cursor _ _ _) (by decide)
        (forward_canon_cons _ _ _),
        move_to_row_end_done k _ (canon_deref_cursor ['c', 'b', 'a'] '\n' ['d'])]
      simp only [Bool.false_eq_true, if_false]
      rw [forward_canon_cons]
      simp only
      rw [canon_compute_column]
      simp only
      have hset : { canon ['\n', 'c', 'b', 'a'] ['d'] with
          column := (canon ['\n', 'c', 'b', 'a'] ['d']).column } =
          canon ['\n', 'c', 'b', 'a'] ['d'] := rfl
      rw [hset]
      unfold move_to_column
      rw [move_to_column_fwd_short_last_row _ ['d'] ['\n', 'c', 'b', 'a'] (k + 1) (by decide)
        (by decide)]
      rfl
  · decide

/-! Moving backward within the current row -/

theorem canon_column_nil (post : List Char) : (canon [] post).column = 0 := rfl

theorem canon_column_newline (rp post : List Char) : (canon ('\n' :: rp) post).column = 0 := by
  simp [canon]

theorem move_to_row_start_canon (rp : List Char) :
    ∀ (post : List Char) (fuel : Nat),
      (rp.takeWhile (fun c => decide (c ≠ '\n'))).length ≤ fuel →
      move_to_row_start fuel (canon rp post) =
        .ok (canon (rp.dropWhile (fun c => decide (c ≠ '\n')))
          ((rp.takeWhile (fun c => decide (c ≠ '\n'))).reverse ++ post)) := by
  induction rp with
  | nil =>
    intro post fuel _
    rw [move_to_row_start_done fuel _ (by rw [canon_column_nil]; decide)]
    rfl
  | cons c rp ih =>
    intro post fuel hf
    by_cases hc : c = '\n'
    · subst hc
      rw [move_to_row_start_done fuel _ (by rw [canon_column_newline]; decide)]
      simp
    · have hcol := (canon_cons_row_column rp c post (c :: post)).2.2 hc
      have hpos : (canon (c :: rp) post).column > 0 := by
        rw [hcol.1]
        simp only [canon]
        omega
      have htw : (c :: rp).takeWhile (fun c => decide (c ≠ '\n')) =
          c :: rp.takeWhile (fun c => decide (c ≠ '\n')) := by
        simp [List.takeWhile_cons, hc]
      have hdw : (c :: rp).dropWhile (fun c => decide (c ≠ '\n')) =
          rp.dropWhile (fun c => decide (c ≠ '\n')) := by
        simp [List.dropWhile_cons, hc]
      rw [htw] at hf ⊢
      rw [hdw]
      cases fuel with
      | zero => simp at hf
      | succ k =>
        rw [move_to_row_start_step k _ _ hpos (backward_canon_cons rp c post),
          ih (c :: post) k (by simpa using hf)]
        simp

theorem takeWhile_dropWhile_newline (l : List Char) :
    (l.dropWhile (fun c => decide (c ≠ '\n'))).takeWhile (fun c => decide (c ≠ '\n')) = [] := by
  induction l with
  | nil => rfl
  | cons c l ih =>
    by_cases hc : c = '\n'
    · subst hc; simp
    · have hd : (c :: l).dropWhile (fun c => decide (c ≠ '\n')) =
          l.dropWhile (fun c => decide (c ≠ '\n')) := by
        simp [List.dropWhile_cons, hc]
      rw [hd]
      exact ih

theorem count_dropWhile_newline (l : List Char) :
    (l.dropWhile (fun c => decide (c ≠ '\n'))).count '\n' = l.count '\n' := by
  induction l with
  | nil => rfl
  | cons c l ih =>
    by_cases hc : c = '\n'
    · subst hc; simp
    · have hc2 : ¬ ('\n' = c) := fun h => hc h.symm
      have hd : (c :: l).dropWhile (fun c => decide (c ≠ '\n')) =
          l.dropWhile (fun c => decide (c ≠ '\n')) := by
        simp [List.dropWhile_cons, hc]
      rw [hd, ih]
      simp [List.count_cons, hc2]

theorem reverse_dropWhile_takeWhile (l post : List Char) :
    (l.dropWhile (fun c => decide (c ≠ '\n'))).reverse ++
      ((l.takeWhile (fun c => decide (c ≠ '\n'))).reverse ++ post) = l.reverse ++ post := by
  have hsplit := List.takeWhile_append_dropWhile (fun c => decide (c ≠ '\n')) l
  rw [← List.append_assoc, ← List.reverse_append, hsplit]

/-- C20: from every reachable state `move_to_row_start()` returns once it may
run `get_column()` iterations, with `get_column() == 0`, `get_row()` unchanged,
`get_index()` smaller by exactly the previous column, and the content
unchanged. -/
theorem move_to_row_start_spec (e : Editor) (h : Reachable e) :
    ∃ e1 s, (∀ fuel : Nat, e.get_column ≤ fuel → move_to_row_start fuel e = .ok e1) ∧
      e1.get_column = 0 ∧ e1.get_row = e.get_row ∧
      e1.get_index = e.get_index - e.get_column ∧
      e.stringify = .ok s ∧ e1.stringify = .ok s := by
  obtain ⟨rp, post, rfl⟩ := reachable_inv h
  have hsplit := List.takeWhile_append_dropWhile (fun c => decide (c ≠ '\n')) rp
  refine ⟨_, _, fun fuel hf => move_to_row_start_canon rp post fuel ?_, ?_, ?_, ?_,
    stringify_canon rp post, ?_⟩
  · simp only [get_column, canon] at hf
    exact_mod_cast hf
  · simp only [get_column, canon, takeWhile_dropWhile_newline]
    rfl
  · simp only [get_row, canon, count_dropWhile_newline]
  · have hlen := congrArg List.length hsplit
    rw [List.length_append] at hlen
    simp only [get_index, get_column, canon]
    omega
  · rw [stringify_canon, reverse_dropWhile_takeWhile]

theorem move_to_row_start_spec_witness :
    Reachable two_rows ∧
      ∃ e1 s, (∀ fuel : Nat, two_rows.get_column ≤ fuel →
          move_to_row_start fuel two_rows = .ok e1) ∧
        e1.get_column = 0 ∧ e1.get_row = two_rows.get_row ∧
        e1.get_index = two_rows.get_index - two_rows.get_column ∧
        two_rows.stringify = .ok s ∧ e1.stringify = .ok s :=
  ⟨two_rows_reachable, move_to_row_start_spec two_rows two_rows_reachable⟩

theorem move_to_column_bwd_canon (n : Nat) (rp : List Char) :
    ∀ (post : List Char) (fuel : Nat),
      (rp.takeWhile (fun c => decide (c ≠ '\n'))).length - n ≤ fuel →
      move_to_column_bwd (n : Int) fuel (canon rp post) =
        .ok (canon (rp.drop ((rp.takeWhile (fun c => decide (c ≠ '\n'))).length - n))
          ((rp.take ((rp.takeWhile (fun c => decide (c ≠ '\n'))).length - n)).reverse
            ++ post)) := by
  induction rp with
  | nil =>
    intro post fuel _
    rw [move_to_column_bwd_done (n : Int) fuel _ (by rw [canon_column_nil]; omega)]
    simp
  | cons c rp ih =>
    intro post fuel hf
    by_cases hc : c = '\n'
    · subst hc
      rw [move_to_column_bwd_done (n : Int) fuel _ (by rw [canon_column_newline]; omega)]
      simp
    · have hcol := (canon_cons_row_column rp c post (c :: post)).2.2 hc
      have htw : (c :: rp).takeWhile (fun c => decide (c ≠ '\n')) =
          c :: rp.takeWhile (fun c => decide (c ≠ '\n')) := by
        simp [List.takeWhile_cons, hc]
      have hcv : (canon rp (c :: post)).column =
          ((rp.takeWhile (fun c => decide (c ≠ '\n'))).length : Nat) := rfl
      rw [htw, List.length_cons] at hf ⊢
      by_cases hgt : (rp.takeWhile (fun c => decide (c ≠ '\n'))).length + 1 > n
      · have hpos : (canon (c :: rp) post).column > (n : Int) := by
          rw [hcol.1, hcv]
          omega
        have hk : (rp.takeWhile (fun c => decide (c ≠ '\n'))).length + 1 - n =
            ((rp.takeWhile (fun c => decide (c ≠ '\n'))).length - n) + 1 := by omega
        rw [hk] at hf ⊢
        cases fuel with
        | zero => omega
        | succ k =>
          rw [move_to_column_bwd_step (n : Int) k _ _ hpos (backward_canon_cons rp c post),
            ih (c :: post) k (by omega)]
          simp
      · have hle : ¬ (canon (c :: rp) post).column > (n : Int) := by
          rw [hcol.1, hcv]
          omega
        have hk : (rp.takeWhile (fun c => decide (c ≠ '\n'))).length + 1 - n = 0 := by omega
        rw [move_to_column_bwd_done (n : Int) fuel _ hle, hk]
        simp

theorem takeWhile_drop_newline (l : List Char) :
    ∀ k, k ≤ (l.takeWhile (fun c => decide (c ≠ '\n'))).length →
      ((l.drop k).takeWhile (fun c => decide (c ≠ '\n'))).length =
        (l.takeWhile (fun c => decide (c ≠ '\n'))).length - k := by
  induction l with
  | nil => intro k _; simp
  | cons c l ih =>
    intro k hk
    cases k with
    | zero => simp
    | succ j =>
      by_cases hc : c = '\n'
      · subst hc; simp at hk
      · have htw : (c :: l).takeWhile (fun c => decide (c ≠ '\n')) =
            c :: l.takeWhile (fun c => decide (c ≠ '\n')) := by
          simp [List.takeWhile_cons, hc]
        rw [htw, List.length_cons] at hk ⊢
        rw [List.drop_succ_cons, ih j (by omega)]
        omega

theorem count_drop_newline (l : List Char) :
    ∀ k, k ≤ (l.takeWhile (fun c => decide (c ≠ '\n'))).length →
      (l.drop k).count '\n' = l.count '\n' := by
  induction l with
  | nil => intro k _; simp
  | cons c l ih =>
    intro k hk
    cases k with
    | zero => simp
    | succ j =>
      by_cases hc : c = '\n'
      · subst hc; simp at hk
      · have hc2 : ¬ ('\n' = c) := fun h => hc h.symm
        have htw : (c :: l).takeWhile (fun c => decide (c ≠ '\n')) =
            c :: l.takeWhile (fun c => decide (c ≠ '\n')) := by
          simp [List.takeWhile_cons, hc]
        rw [htw, List.length_cons] at hk
        rw [List.drop_succ_cons, ih j (by omega)]
        simp [List.count_cons, hc2]

/-! Rows of the content -/

theorem takeWhile_newline_free (l rest : List Char) (hl : ∀ c ∈ l, c ≠ '\n') :
    (l ++ '\n' :: rest).takeWhile (fun c => decide (c ≠ '\n')) = l := by
  induction l with
  | nil => simp
  | cons c l ih =>
    have hc : c ≠ '\n' := hl c (List.mem_cons_self c l)
    have ih2 := ih (fun x hx => hl x (List.mem_cons_of_mem c hx))
    rw [List.cons_append, List.takeWhile_cons]
    simp only [hc, ne_eq, not_false_eq_true, decide_True, if_true]
    rw [ih2]

theorem dropWhile_newline_free (l rest : List Char) (hl : ∀ c ∈ l, c ≠ '\n') :
    (l ++ '\n' :: rest).dropWhile (fun c => decide (c ≠ '\n')) = '\n' :: rest := by
  induction l with
  | nil => simp
  | cons c l ih =>
    have hc : c ≠ '\n' := hl c (List.mem_cons_self c l)
    have ih2 := ih (fun x hx => hl x (List.mem_cons_of_mem c hx))
    rw [List.cons_append, List.dropWhile_cons]
    simp only [hc, ne_eq, not_false_eq_true, decide_True, if_true]
    rw [ih2]

theorem takeWhile_all_newline_free (l : List Char) (hl : ∀ c ∈ l, c ≠ '\n') :
    l.takeWhile (fun c => decide (c ≠ '\n')) = l := by
  induction l with
  | nil => rfl
  | cons c l ih =>
    have hc : c ≠ '\n' := hl c (List.mem_cons_self c l)
    have ih2 := ih (fun x hx => hl x (List.mem_cons_of_mem c hx))
    rw [List.takeWhile_cons]
    simp only [hc, ne_eq, not_false_eq_true, decide_True, if_true]
    rw [ih2]

theorem takeWhile_is_newline_free (l : List Char) :
    ∀ c ∈ l.takeWhile (fun c => decide (c ≠ '\n')), c ≠ '\n' := by
  intro c hc
  have h := List.mem_takeWhile_imp hc
  simpa using h

theorem dropWhile_head_newline (l : List Char) (x : Char) (t : List Char)
    (h : l.dropWhile (fun c => decide (c ≠ '\n')) = x :: t) : x = '\n' := by
  induction l with
  | nil => simp at h
  | cons c l ih =>
    by_cases hc : c = '\n'
    · subst hc
      simp at h
      exact h.1.symm
    · have hd : (c :: l).dropWhile (fun c => decide (c ≠ '\n')) =
          l.dropWhile (fun c => decide (c ≠ '\n')) := by
        simp [List.dropWhile_cons, hc]
      rw [hd] at h
      exact ih h

theorem row_length_succ_cons (c : Char) (s : List Char) (r : Nat) (hc : c ≠ '\n') :
    row_length (c :: s) (r + 1) = row_length s (r + 1) := by
  have hd : (c :: s).dropWhile (fun c => decide (c ≠ '\n')) =
      s.dropWhile (fun c => decide (c ≠ '\n')) := by
    simp [List.dropWhile_cons, hc]
  rw [row_length, hd, row_length]

theorem row_length_succ_newline (s : List Char) (r : Nat) :
    row_length ('\n' :: s) (r + 1) = row_length s r := by
  rw [row_length]
  simp

theorem row_length_skip (a : List Char) :
    ∀ (b : List Char) (j : Nat),
      row_length (a ++ '\n' :: b) (a.count '\n' + 1 + j) = row_length b j := by
  induction a with
  | nil =>
    intro b j
    have h : ([] : List Char).count '\n' + 1 + j = j + 1 := by simp; omega
    rw [h, List.nil_append, row_length_succ_newline]
  | cons c a ih =>
    intro b j
    by_cases hc : c = '\n'
    · subst hc
      have h : ('\n' :: a).count '\n' + 1 + j = (a.count '\n' + 1 + j) + 1 := by
        simp; omega
      rw [h, List.cons_append, row_length_succ_newline, ih]
    · have hc2 : ¬ ('\n' = c) := fun h => hc h.symm
      have h : (c :: a).count '\n' + 1 + j = (a.count '\n' + j) + 1 := by
        simp [List.count_cons, hc2]; omega
      have h2 : a.count '\n' + 1 + j = (a.count '\n' + j) + 1 := by omega
      rw [h, List.cons_append, row_length_succ_cons c _ _ hc, ← h2, ih]

theorem row_length_of_previous_row (rp2 rest : List Char) :
    row_length (rp2.reverse ++ '\n' :: rest) (rp2.count '\n') =
      (rp2.takeWhile (fun c => decide (c ≠ '\n'))).length := by
  have hsplit := List.takeWhile_append_dropWhile (fun c => decide (c ≠ '\n')) rp2
  have hfree := takeWhile_is_newline_free rp2
  have hfree_rev : ∀ c ∈ (rp2.takeWhile (fun c => decide (c ≠ '\n'))).reverse, c ≠ '\n' :=
    fun c hc => hfree c (List.mem_reverse.mp hc)
  have hcount0 : (rp2.takeWhile (fun c => decide (c ≠ '\n'))).count '\n' = 0 :=
    List.count_eq_zero.mpr (fun hm => hfree _ hm rfl)
  cases hdw : rp2.dropWhile (fun c => decide (c ≠ '\n')) with
  | nil =>
    rw [hdw, List.append_nil] at hsplit
    have hfree2 : ∀ c ∈ rp2, c ≠ '\n' := fun c hc => hfree c (by rw [hsplit]; exact hc)
    have hc0 : rp2.count '\n' = 0 := List.count_eq_zero.mpr (fun hm => hfree2 _ hm rfl)
    rw [hc0, row_length,
      takeWhile_newline_free _ rest (fun c hc => hfree2 c (List.mem_reverse.mp hc)), hsplit]
    simp
  | cons x rp3 =>
    have hx := dropWhile_head_newline rp2 x rp3 hdw
    subst hx
    rw [hdw] at hsplit
    have hrev : rp2.reverse ++ '\n' :: rest =
        rp3.reverse ++ '\n' ::
          ((rp2.takeWhile (fun c => decide (c ≠ '\n'))).reverse ++ '\n' :: rest) := by
      conv_lhs => rw [← hsplit]
      simp
    have hcount : rp2.count '\n' = rp3.reverse.count '\n' + 1 + 0 := by
      conv_lhs => rw [← hsplit]
      rw [List.count_append, hcount0]
      simp
    rw [hrev, hcount, row_length_skip, row_length, takeWhile_newline_free _ rest hfree_rev]
    simp

/-! Moving up one row -/

theorem canon_set_column (rp post : List Char) :
    { canon rp post with column := (canon rp post).column } = canon rp post := rfl

theorem move_to_column_on_newline (n : Nat) (rp post : List Char) (fuel : Nat)
    (hf : (rp.takeWhile (fun c => decide (c ≠ '\n'))).length - n ≤ fuel) :
    move_to_column fuel (canon rp ('\n' :: post)) (n : Int) =
      .ok (canon (rp.drop ((rp.takeWhile (fun c => decide (c ≠ '\n'))).length - n))
        ((rp.take ((rp.takeWhile (fun c => decide (c ≠ '\n'))).length - n)).reverse
          ++ '\n' :: post)) := by
  unfold move_to_column
  have hneg : ¬ ((n : Int) < 0) := by omega
  rw [if_neg hneg,
    move_to_column_fwd_done (n : Int) fuel _ '\n' (canon_deref_cursor rp '\n' post)
      (fun h => h.1 rfl)]
  exact move_to_column_bwd_canon n rp ('\n' :: post) fuel hf

theorem up_canon (tw rp2 post : List Char) (fuel : Nat) (htw : ∀ c ∈ tw, c ≠ '\n')
    (hf1 : tw.length ≤ fuel)
    (hf2 : (rp2.takeWhile (fun c => decide (c ≠ '\n'))).length - tw.length ≤ fuel) :
    up fuel (canon (tw ++ '\n' :: rp2) post) =
      .ok (canon
        (rp2.drop ((rp2.takeWhile (fun c => decide (c ≠ '\n'))).length - tw.length))
        ((rp2.take ((rp2.takeWhile (fun c => decide (c ≠ '\n'))).length - tw.length)).reverse
          ++ '\n' :: (tw.reverse ++ post)), true) := by
  have htake := takeWhile_newline_free tw rp2 htw
  have hdrop := dropWhile_newline_free tw rp2 htw
  have hrow : ¬ ((canon (tw ++ '\n' :: rp2) post).row = 1) := by
    simp only [canon, List.count_append, List.count_cons_self]
    omega
  have hcol : (canon (tw ++ '\n' :: rp2) post).column = ((tw.length : Nat) : Int) := by
    simp only [canon, htake]
  unfold up
  rw [if_neg hrow, move_to_row_start_canon _ post fuel (by rw [htake]; exact hf1), htake, hdrop]
  simp only
  rw [backward_canon_cons]
  simp only
  rw [canon_compute_column]
  simp only
  rw [canon_set_column, hcol, move_to_column_on_newline tw.length rp2 _ fuel hf2]

theorem up_spec_canon (tw rp2 post : List Char) (htw : ∀ c ∈ tw, c ≠ '\n') :
    ∃ r s, (∀ fuel : Nat, (canon (tw ++ '\n' :: rp2) post).buffer.length ≤ fuel →
        up fuel (canon (tw ++ '\n' :: rp2) post) = .ok r) ∧
      r.2 = true ∧ r.1.get_row = (canon (tw ++ '\n' :: rp2) post).get_row - 1 ∧
      r.1.get_column = min (canon (tw ++ '\n' :: rp2) post).get_column
        ((row_length s.data ((canon (tw ++ '\n' :: rp2) post).get_row - 2).toNat : Nat) : Int) ∧
      (canon (tw ++ '\n' :: rp2) post).stringify = .ok s ∧ r.1.stringify = .ok s := by
  have htake := takeWhile_newline_free tw rp2 htw
  have hcount0 : tw.count '\n' = 0 := List.count_eq_zero.mpr (fun hm => htw _ hm rfl)
  have hsub : List.Sublist (rp2.takeWhile (fun c => decide (c ≠ '\n'))) rp2 :=
    List.takeWhile_sublist _
  have hle2 := hsub.length_le
  have hk : (rp2.takeWhile (fun c => decide (c ≠ '\n'))).length - tw.length ≤
      (rp2.takeWhile (fun c => decide (c ≠ '\n'))).length := Nat.sub_le _ _
  refine ⟨_, _, fun fuel hf => up_canon tw rp2 post fuel htw ?_ ?_, rfl, ?_, ?_,
    stringify_canon _ post, ?_⟩
  · simp only [canon, List.length_cons, List.length_append, List.length_reverse] at hf
    omega
  · simp only [canon, List.length_cons, List.length_append, List.length_reverse] at hf
    omega
  · simp only [get_row, canon, count_drop_newline rp2 _ hk, List.count_append,
      List.count_cons_self, hcount0]
    push_cast
    omega
  · have hidx : ((canon (tw ++ '\n' :: rp2) post).get_row - 2).toNat = rp2.count '\n' := by
      simp only [get_row, canon, List.count_append, List.count_cons_self, hcount0]
      omega
    have hcontent : (tw ++ '\n' :: rp2).reverse ++ post =
        rp2.reverse ++ '\n' :: (tw.reverse ++ post) := by simp
    rw [hidx]
    simp only [hcontent, row_length_of_previous_row]
    simp only [get_column, canon, takeWhile_drop_newline rp2 _ hk, htake]
    rw [min_def]
    split <;> omega
  · rw [stringify_canon]
    congr 2
    rw [← List.append_assoc, ← List.reverse_append, List.take_append_drop]
    simp

/-- C15: in every reachable state, `up()` on row 1 returns false and changes
nothing; on any other row it returns (once it may run as many iterations as the
buffer has nodes) true with `get_row()` smaller by exactly 1, `get_column()` the
minimum of the previous column and the length of the row above, and the
content unchanged. -/
theorem up_spec (e : Editor) (h : Reachable e) :
    (e.get_row = 1 → ∀ fuel, up fuel e = .ok (e, false)) ∧
    (e.get_row ≠ 1 →
      ∃ r s, (∀ fuel : Nat, e.buffer.length ≤ fuel → up fuel e = .ok r) ∧
        r.2 = true ∧ r.1.get_row = e.get_row - 1 ∧
        r.1.get_column =
          min e.get_column ((row_length s.data (e.get_row - 2).toNat : Nat) : Int) ∧
        e.stringify = .ok s ∧ r.1.stringify = .ok s) := by
  obtain ⟨rp, post, rfl⟩ := reachable_inv h
  constructor
  · intro hrow fuel
    have hrow2 : (canon rp post).row = 1 := hrow
    unfold up
    rw [if_pos hrow2]
  · intro hrow
    have hsplit := List.takeWhile_append_dropWhile (fun c => decide (c ≠ '\n')) rp
    have hfree := takeWhile_is_newline_free rp
    have hcnt := count_dropWhile_newline rp
    cases hdw : rp.dropWhile (fun c => decide (c ≠ '\n')) with
    | nil =>
      rw [hdw] at hcnt
      exfalso
      apply hrow
      simp only [get_row, canon, ← hcnt]
      rfl
    | cons x rp2 =>
      have hx := dropWhile_head_newline rp x rp2 hdw
      subst hx
      rw [hdw] at hsplit
      rw [← hsplit]
      exact up_spec_canon _ rp2 post hfree

theorem up_spec_witness :
    Reachable two_rows ∧
      (two_rows.get_row = 1 → ∀ fuel, up fuel two_rows = .ok (two_rows, false)) ∧
      (two_rows.get_row ≠ 1 →
        ∃ r s, (∀ fuel : Nat, two_rows.buffer.length ≤ fuel → up fuel two_rows = .ok r) ∧
          r.2 = true ∧ r.1.get_row = two_rows.get_row - 1 ∧
          r.1.get_column =
            min two_rows.get_column
              ((row_length s.data (two_rows.get_row - 2).toNat : Nat) : Int) ∧
          two_rows.stringify = .ok s ∧ r.1.stringify = .ok s) :=
  ⟨two_rows_reachable, up_spec two_rows two_rows_reachable⟩

/-! The backward scan for the column -/

/-- C29: for every content `before ++ after` with the cursor just after
`before` (so strictly after the leading sentinel), `compute_column()` returns
the number of characters of `before` after its last line terminator (all of
them when it has none), whatever the `row`, `column` and `index` fields hold;
it is 0 when the cursor is on the first character and 0 when the character
before the cursor is a line terminator. -/
theorem compute_column_spec (before after : List Char) (row column index : Int) :
    (with_fields before after row column index).compute_column =
        .ok (chars_since_newline before : Nat) ∧
      (with_fields [] after row column index).compute_column = .ok 0 ∧
      (with_fields (before ++ ['\n']) after row column index).compute_column = .ok 0 := by
  have key : ∀ b : List Char, (with_fields b after row column index).compute_column =
      .ok (chars_since_newline b : Nat) := by
    intro b
    have h := compute_column_scan (with_fields b after row column index) b.reverse
      (after ++ [NUL]) (by simp [with_fields]) rfl (by simp [with_fields])
    rw [h]
    rfl
  refine ⟨key before, ?_, ?_⟩
  · rw [key]
    rfl
  · rw [key]
    simp [chars_since_newline]

/-! Navigation does not change the content -/

theorem hasContent_inv {s : List Char} {e : Editor} (h : HasContent s e) : Inv e := by
  obtain ⟨rp, post, he, _⟩ := h
  exact ⟨rp, post, he⟩

theorem hasContent_forward {s : List Char} {e : Editor} {r : Editor × Bool}
    (h : HasContent s e) (hr : e.forward = .ok r) : HasContent s r.1 := by
  obtain ⟨rp, post, rfl, hs⟩ := h
  cases post with
  | nil =>
    rw [forward_canon_end] at hr
    cases hr
    exact ⟨rp, [], rfl, hs⟩
  | cons c post =>
    rw [forward_canon_cons] at hr
    cases hr
    exact ⟨c :: rp, post, rfl, by simpa using hs⟩

theorem hasContent_backward {s : List Char} {e : Editor} {r : Editor × Bool}
    (h : HasContent s e) (hr : e.backward = .ok r) : HasContent s r.1 := by
  obtain ⟨rp, post, rfl, hs⟩ := h
  cases rp with
  | nil =>
    rw [backward_canon_nil] at hr
    cases hr
    exact ⟨[], post, rfl, hs⟩
  | cons c rp =>
    rw [backward_canon_cons] at hr
    cases hr
    exact ⟨rp, c :: post, rfl, by simpa using hs⟩

theorem hasContent_move_to_row_start {s : List Char} (fuel : Nat) :
    ∀ {e e1 : Editor}, HasContent s e → move_to_row_start fuel e = .ok e1 →
      HasContent s e1 := by
  induction fuel with
  | zero =>
    intro e e1 h hr
    unfold move_to_row_start at hr
    split at hr
    · cases hr
    · cases hr; exact h
  | succ n ih =>
    intro e e1 h hr
    unfold move_to_row_start at hr
    split at hr
    · obtain ⟨r, hb, _⟩ := backward_total (hasContent_inv h)
      rw [hb] at hr
      exact ih (hasContent_backward h hb) hr
    · cases hr; exact h

theorem hasContent_move_to_row_end {s : List Char} (fuel : Nat) :
    ∀ {e e1 : Editor}, HasContent s e → move_to_row_end fuel e = .ok e1 →
      HasContent s e1 := by
  induction fuel with
  | zero =>
    intro e e1 h hr
    unfold move_to_row_end at hr
    cases hd : e.deref e.cursor with
    | error f => rw [hd] at hr; cases hr
    | ok c =>
      rw [hd] at hr
      dsimp only at hr
      split at hr
      · cases hr
      · cases hr; exact h
  | succ n ih =>
    intro e e1 h hr
    unfold move_to_row_end at hr
    cases hd : e.deref e.cursor with
    | error f => rw [hd] at hr; cases hr
    | ok c =>
      rw [hd] at hr
      dsimp only at hr
      split at hr
      · obtain ⟨r, hb, _⟩ := forward_total (hasContent_inv h)
        rw [hb] at hr
        exact ih (hasContent_forward h hb) hr
      · cases hr; exact h

theorem hasContent_move_to_column_fwd {s : List Char} (n : Int) (fuel : Nat) :
    ∀ {e e1 : Editor}, HasContent s e → move_to_column_fwd n fuel e = .ok e1 →
      HasContent s e1 := by
  induction fuel with
  | zero =>
    intro e e1 h hr
    unfold move_to_column_fwd at hr
    cases hd : e.deref e.cursor with
    | error f => rw [hd] at hr; cases hr
    | ok c =>
      rw [hd] at hr
      dsimp only at hr
      split at hr
      · cases hr
      · cases hr; exact h
  | succ k ih =>
    intro e e1 h hr
    unfold move_to_column_fwd at hr
    cases hd : e.deref e.cursor with
    | error f => rw [hd] at hr; cases hr
    | ok c =>
      rw [hd] at hr
      dsimp only at hr
      split at hr
      · obtain ⟨r, hb, _⟩ := forward_total (hasContent_inv h)
        rw [hb] at hr
        exact ih (hasContent_forward h hb) hr
      · cases hr; exact h

theorem hasContent_move_to_column_bwd {s : List Char} (n : Int) (fuel : Nat) :
    ∀ {e e1 : Editor}, HasContent s e → move_to_column_bwd n fuel e = .ok e1 →
      HasContent s e1 := by
  induction fuel with
  | zero =>
    intro e e1 h hr
    unfold move_to_column_bwd at hr
    split at hr
    · cases hr
    · cases hr; exact h
  | succ k ih =>
    intro e e1 h hr
    unfold move_to_column_bwd at hr
    split at hr
    · obtain ⟨r, hb, _⟩ := backward_total (hasContent_inv h)
      rw [hb] at hr
      exact ih (hasContent_backward h hb) hr
    · cases hr; exact h

theorem hasContent_move_to_column {s : List Char} {fuel : Nat} {n : Int} {e e1 : Editor}
    (h : HasContent s e) (hr : move_to_column fuel e n = .ok e1) : HasContent s e1 := by
  unfold move_to_column at hr
  split at hr
  · cases hr
  · cases hf : move_to_column_fwd n fuel e with
    | error f => rw [hf] at hr; cases hr
    | ok e2 =>
      rw [hf] at hr
      exact hasContent_move_to_column_bwd n fuel (hasContent_move_to_column_fwd n fuel h hf) hr

theorem hasContent_up {s : List Char} {fuel : Nat} {e : Editor} {r : Editor × Bool}
    (h : HasContent s e) (hr : up fuel e = .ok r) : HasContent s r.1 := by
  unfold up at hr
  split at hr
  · cases hr; exact h
  · cases h1 : move_to_row_start fuel e with
    | error f => rw [h1] at hr; cases hr
    | ok e1 =>
      have i1 := hasContent_move_to_row_start fuel h h1
      obtain ⟨r2, h2, _⟩ := backward_total (hasContent_inv i1)
      have i2 := hasContent_backward i1 h2
      rw [h1] at hr
      dsimp only at hr
      rw [h2] at hr
      dsimp only at hr
      cases h3 : r2.1.compute_column with
      | error f => rw [h3] at hr; cases hr
      | ok col =>
        rw [h3] at hr
        dsimp only at hr
        rw [inv_set_column (hasContent_inv i2) h3] at hr
        cases h4 : move_to_column fuel r2.1 e.column with
        | error f => rw [h4] at hr; cases hr
        | ok e4 =>
          rw [h4] at hr
          cases hr
          exact hasContent_move_to_column i2 h4

theorem hasContent_down {s : List Char} {fuel : Nat} {e : Editor} {r : Editor × Bool}
    (h : HasContent s e) (hr : down fuel e = .ok r) : HasContent s r.1 := by
  unfold down at hr
  split at hr
  · cases hr; exact h
  · cases h1 : move_to_row_end fuel e with
    | error f => rw [h1] at hr; cases hr
    | ok e1 =>
      have i1 := hasContent_move_to_row_end fuel h h1
      obtain ⟨r2, h2, _⟩ := forward_total (hasContent_inv i1)
      have i2 := hasContent_forward i1 h2
      rw [h1] at hr
      dsimp only at hr
      rw [h2] at hr
      dsimp only at hr
      cases h3 : r2.1.compute_column with
      | error f => rw [h3] at hr; cases hr
      | ok col =>
        rw [h3] at hr
        dsimp only at hr
        rw [inv_set_column (hasContent_inv i2) h3] at hr
        cases h4 : move_to_column fuel r2.1 e.column with
        | error f => rw [h4] at hr; cases hr
        | ok e4 =>
          rw [h4] at hr
          cases hr
          exact hasContent_move_to_column i2 h4

theorem hasContent_observe {s : List Char} {e : Editor} (h : HasContent s e) :
    e.stringify = .ok (String.mk s) ∧ e.size = (s.length : Nat) + 2 ∧
      e.buffer = NUL :: (s ++ [NUL]) := by
  obtain ⟨rp, post, rfl, hs⟩ := h
  subst hs
  refine ⟨stringify_canon rp post, ?_, ?_⟩
  · simp only [Editor.size, canon]
    simp
    omega
  · simp [canon]

theorem move_to_row_start_returns {e : Editor} (h : Inv e) :
    ∃ e1, move_to_row_start e.buffer.length e = .ok e1 := by
  obtain ⟨rp, post, rfl⟩ := h
  refine ⟨_, move_to_row_start_canon rp post _ ?_⟩
  have hsub : List.Sublist (rp.takeWhile (fun c => decide (c ≠ '\n'))) rp :=
    List.takeWhile_sublist _
  have hle := hsub.length_le
  simp only [canon, List.length_cons, List.length_append, List.length_reverse]
  omega

theorem up_returns {e : Editor} (h : Inv e) : ∃ r, up e.buffer.length e = .ok r := by
  obtain ⟨rp, post, rfl⟩ := h
  by_cases hrow : (canon rp post).row = 1
  · refine ⟨(canon rp post, false), ?_⟩
    unfold up
    rw [if_pos hrow]
  · have hsplit := List.takeWhile_append_dropWhile (fun c => decide (c ≠ '\n')) rp
    have hfree := takeWhile_is_newline_free rp
    have hcnt := count_dropWhile_newline rp
    cases hdw : rp.dropWhile (fun c => decide (c ≠ '\n')) with
    | nil =>
      rw [hdw] at hcnt
      exfalso
      apply hrow
      simp only [canon, ← hcnt]
      rfl
    | cons x rp2 =>
      have hx := dropWhile_head_newline rp x rp2 hdw
      subst hx
      rw [hdw] at hsplit
      rw [← hsplit]
      obtain ⟨r, _, hup, _⟩ := up_spec_canon _ rp2 post hfree
      exact ⟨r, hup _ (le_refl _)⟩

/-- C30: in every reachable state with content `s`, `forward()` and
`backward()` return, `up()` and `move_to_row_start()` return once they may run
as many iterations as the buffer has nodes, and every call of these and of
`down()`, `move_to_row_end()` and `move_to_column(n)` that returns leaves
`stringify()` equal to `s` and `size()` unchanged. -/
theorem navigation_frame (e : Editor) (h : Reachable e) :
    ∃ s, e.stringify = .ok s ∧
      (∃ r, e.forward = .ok r ∧ r.1.stringify = .ok s ∧ r.1.size = e.size) ∧
      (∃ r, e.backward = .ok r ∧ r.1.stringify = .ok s ∧ r.1.size = e.size) ∧
      (∃ r, up e.buffer.length e = .ok r) ∧
      (∀ fuel r, up fuel e = .ok r → r.1.stringify = .ok s ∧ r.1.size = e.size) ∧
      (∃ e1, move_to_row_start e.buffer.length e = .ok e1) ∧
      (∀ fuel e1, move_to_row_start fuel e = .ok e1 →
        e1.stringify = .ok s ∧ e1.size = e.size) ∧
      (∀ fuel r, down fuel e = .ok r → r.1.stringify = .ok s ∧ r.1.size = e.size) ∧
      (∀ fuel e1, move_to_row_end fuel e = .ok e1 →
        e1.stringify = .ok s ∧ e1.size = e.size) ∧
      (∀ fuel n e1, move_to_column fuel e n = .ok e1 →
        e1.stringify = .ok s ∧ e1.size = e.size) := by
  have hi := reachable_inv h
  have hc : HasContent (visible_before e ++ (e.buffer.drop e.cursor).dropLast) e := by
    obtain ⟨rp, post, rfl⟩ := hi
    refine ⟨rp, post, rfl, ?_⟩
    rw [visible_before_canon]
    simp [canon, drop_reverse_append]
  have h0 := hasContent_observe hc
  have frame : ∀ e1 : Editor,
      HasContent (visible_before e ++ (e.buffer.drop e.cursor).dropLast) e1 →
      e1.stringify = .ok (String.mk (visible_before e ++ (e.buffer.drop e.cursor).dropLast)) ∧
        e1.size = e.size := by
    intro e1 h1
    have h2 := hasContent_observe h1
    exact ⟨h2.1, by rw [h2.2.1, h0.2.1]⟩
  obtain ⟨rf, hf, _⟩ := forward_total hi
  obtain ⟨rb, hb, _⟩ := backward_total hi
  refine ⟨_, h0.1, ⟨rf, hf, frame _ (hasContent_forward hc hf)⟩,
    ⟨rb, hb, frame _ (hasContent_backward hc hb)⟩, up_returns hi, ?_,
    move_to_row_start_returns hi, ?_, ?_, ?_, ?_⟩
  · intro fuel r hr
    exact frame _ (hasContent_up hc hr)
  · intro fuel e1 hr
    exact frame _ (hasContent_move_to_row_start fuel hc hr)
  · intro fuel r hr
    exact frame _ (hasContent_down hc hr)
  · intro fuel e1 hr
    exact frame _ (hasContent_move_to_row_end fuel hc hr)
  · intro fuel n e1 hr
    exact frame _ (hasContent_move_to_column hc hr)

theorem navigation_frame_witness :
    Reachable abc_de_on_c ∧
      ∃ s, abc_de_on_c.stringify = .ok s ∧
        (∃ r, abc_de_on_c.forward = .ok r ∧ r.1.stringify = .ok s ∧ r.1.size = abc_de_on_c.size) ∧
        (∃ r, abc_de_on_c.backward = .ok r ∧ r.1.stringify = .ok s ∧ r.1.size = abc_de_on_c.size) ∧
        (∃ r, up abc_de_on_c.buffer.length abc_de_on_c = .ok r) ∧
        (∀ fuel r, up fuel abc_de_on_c = .ok r → r.1.stringify = .ok s ∧ r.1.size = abc_de_on_c.size) ∧
        (∃ e1, move_to_row_start abc_de_on_c.buffer.length abc_de_on_c = .ok e1) ∧
        (∀ fuel e1, move_to_row_start fuel abc_de_on_c = .ok e1 →
          e1.stringify = .ok s ∧ e1.size = abc_de_on_c.size) ∧
        (∀ fuel r, down fuel abc_de_on_c = .ok r → r.1.stringify = .ok s ∧ r.1.size = abc_de_on_c.size) ∧
        (∀ fuel e1, move_to_row_end fuel abc_de_on_c = .ok e1 →
          e1.stringify = .ok s ∧ e1.size = abc_de_on_c.size) ∧
        (∀ fuel n e1, move_to_column fuel abc_de_on_c n = .ok e1 →
          e1.stringify = .ok s ∧ e1.size = abc_de_on_c.size) :=
  ⟨abc_de_on_c_reachable, navigation_frame abc_de_on_c abc_de_on_c_reachable⟩

/-! The lists of the tests, and lists emptied by `pop_back` or `pop_front` -/

open LinkedList

theorem singleton_3_reachable : ListReachable singleton_3 :=
  ListReachable.push_back 3 0 ListReachable.ctor rfl
    (rfl : LinkedList.ctor.push_back 3 0 = .ok singleton_3)

theorem popped_back_reachable : ListReachable popped_back :=
  ListReachable.pop_back singleton_3_reachable (rfl : singleton_3.pop_back = .ok popped_back)

theorem refilled_same_reachable : ListReachable refilled_same :=
  ListReachable.push_front 2 0 popped_back_reachable rfl
    (rfl : popped_back.push_front 2 0 = .ok refilled_same)

theorem refilled_other_reachable : ListReachable refilled_other :=
  ListReachable.push_front 2 1 popped_back_reachable rfl
    (rfl : popped_back.push_front 2 1 = .ok refilled_other)

theorem list_1_reachable : ListReachable list_1 :=
  ListReachable.push_back 1 0 ListReachable.ctor rfl
    (rfl : LinkedList.ctor.push_back 1 0 = .ok list_1)

theorem list_12_reachable : ListReachable list_12 :=
  ListReachable.push_back 2 1 list_1_reachable rfl (rfl : list_1.push_back 2 1 = .ok list_12)

theorem list_123_reachable : ListReachable list_123 :=
  ListReachable.push_back 3 2 list_12_reachable rfl (rfl : list_12.push_back 3 2 = .ok list_123)

/-- A traversal that reaches two nodes that are each the successor of the other
(or one node that is its own successor) is not finished after any number of
iterations. -/
theorem elems_loop_cycle {T : Type} (l : LinkedList T) (a b : Nat) (n m : Node T)
    (ha : l.heap a = some n) (hn : n.next = some b) (hb : l.heap b = some m)
    (hm : m.next = some a) (fuel : Nat) :
    l.elems_loop fuel (some a) = .error .fuel ∧ l.elems_loop fuel (some b) = .error .fuel := by
  induction fuel with
  | zero => exact ⟨rfl, rfl⟩
  | succ k ih => constructor <;> simp only [elems_loop, ha, hb, hn, hm, ih.1, ih.2]

/-- A traversal from a node whose successor starts a traversal that never
finishes does not finish either. -/
theorem elems_loop_into_cycle {T : Type} (l : LinkedList T) (a : Nat) (n : Node T)
    (ha : l.heap a = some n) (hc : ∀ fuel, l.elems_loop fuel n.next = .error .fuel)
    (fuel : Nat) : l.elems_loop fuel (some a) = .error .fuel := by
  cases fuel with
  | zero => rfl
  | succ k => simp only [elems_loop, ha, hc k]

/-- The traversal of `refilled_same` from `begin()` is not finished after any
number of iterations: the `next` of its only node is that node. -/
theorem refilled_same_traversal (fuel : Nat) :
    refilled_same.elems_loop fuel refilled_same.begin = .error .fuel :=
  (elems_loop_cycle refilled_same 0 0 _ _ rfl rfl rfl rfl fuel).1

/-- Whatever address `new` returns, `push_front(2)` on `popped_back` returns a
list whose traversal does not read `[2]`. -/
theorem push_front_popped_back (a : Nat) :
    ∃ l1, popped_back.push_front 2 a = .ok l1 ∧ l1.size = 1 ∧ l1.front = .ok 2 ∧
      ∃ f, l1.elems = .error f := by
  rcases Nat.eq_zero_or_pos a with h | h
  · subst h
    exact ⟨refilled_same, rfl, rfl, rfl, .fuel, rfl⟩
  · obtain ⟨k, rfl⟩ : ∃ k, a = k + 1 := ⟨a - 1, by omega⟩
    refine ⟨_, rfl, rfl, ?_, .undefined, ?_⟩
    · simp [front, LinkedList.empty, load, store]
    · have hm : max popped_back.fresh (k + 1 + 1) = k + 1 + 1 := by
        have : popped_back.fresh = 1 := rfl
        omega
      simp only [elems, hm, LinkedList.begin]
      simp [elems_loop, store, popped_back, singleton_3]

/-- The traversal of a list built by `push_back` alone reads the pushed values
in order, and `push_front`, `push_back`, `insert`, `erase` and the iterator
steps act on it as on the sequence (the checks of `List_tests.cpp`). -/
theorem list_123_operations :
    ListReachable list_123 ∧ list_123.elems = .ok [1, 2, 3] ∧ list_123.size = 3 ∧
      (∃ l1, list_123.push_front 7 3 = .ok l1 ∧ l1.elems = .ok [7, 1, 2, 3] ∧
        l1.front = .ok 7 ∧ l1.size = 4) ∧
      (∃ l1, list_123.push_back 7 3 = .ok l1 ∧ l1.elems = .ok [1, 2, 3, 7] ∧
        l1.back = .ok 7 ∧ l1.size = 4) ∧
      list_123.iter_at 1 = .ok (some 1) ∧
      (∃ r, list_123.insert (some 1) 7 3 = .ok r ∧ r.1.elems = .ok [1, 7, 2, 3] ∧
        r.1.size = 4 ∧ r.1.Iterator_deref r.2 = .ok 7 ∧ r.1.iter_at 1 = .ok r.2) ∧
      (∃ r, list_123.erase (some 1) = .ok r ∧ r.1.elems = .ok [1, 3] ∧
        r.1.size = 2 ∧ r.1.Iterator_deref r.2 = .ok 3 ∧ r.1.iter_at 1 = .ok r.2) ∧
      (∃ r, list_123.erase (some 2) = .ok r ∧ r.1.elems = .ok [1, 2] ∧
        r.1.size = 2 ∧ r.2 = LinkedList.end_) ∧
      list_123.Iterator_incr (some 0) = .ok (some 1) ∧
      list_123.Iterator_decr (some 1) = .ok (some 0) ∧
      list_123.Iterator_decr (some 2) = .ok (some 1) ∧
      list_123.Iterator_incr (some 1) = .ok (some 2) :=
  ⟨list_123_reachable, rfl, rfl, ⟨_, rfl, rfl, rfl, rfl⟩, ⟨_, rfl, rfl, rfl, rfl⟩, rfl,
    ⟨_, rfl, rfl, rfl, rfl, rfl⟩, ⟨_, rfl, rfl, rfl, rfl, rfl⟩, ⟨_, rfl, rfl, rfl, rfl⟩,
    rfl, rfl, rfl, rfl⟩

/-! Defects of the list: the emptying pop, and `insert` at the end -/

/-- C21: after `push_back(3); pop_back();` the list is `empty()` with
`size() == 0`, so its sequence is empty and `push_front(2)` should make it
`[2]`.  The call returns with `size() == 1` and `front() == 2`, but the new
node gets `next = first`, the address of the deleted node: whatever address
`new` returns, the traversal of the result does not read `[2]`.  When `new`
returns the address of the deleted node again the only node is its own
successor and the traversal never ends; when it returns another address the
traversal reads the deleted node. -/
theorem list_push_front_after_emptying_pop :
    ListReachable popped_back ∧ popped_back.empty = true ∧ popped_back.size = 0 ∧
      (∀ a, ∃ l1, popped_back.push_front 2 a = .ok l1 ∧ l1.size = popped_back.size + 1 ∧
        l1.front = .ok 2 ∧ l1.elems ≠ .ok [2]) ∧
      popped_back.push_front 2 0 = .ok refilled_same ∧
      (∀ fuel, refilled_same.elems_loop fuel refilled_same.begin = .error .fuel) ∧
      popped_back.push_front 2 1 = .ok refilled_other ∧
      refilled_other.elems = .error .undefined := by
  refine ⟨popped_back_reachable, rfl, rfl, ?_, rfl, refilled_same_traversal, rfl, rfl⟩
  intro a
  obtain ⟨l1, h1, h2, h3, f, h4⟩ := push_front_popped_back a
  exact ⟨l1, h1, h2, h3, by rw [h4]; exact fun h => Except.noConfusion h⟩

/-- C22: after `push_back(3); pop_back();` on a new list the list is `empty()`
with `size() == 0`, but `begin()` is the address of the deleted node, so the
traversal from `begin()` to `end()` reads a deleted node instead of visiting no
element. -/
theorem list_pop_back_leaves_first :
    ListReachable singleton_3 ∧ singleton_3.elems = .ok [3] ∧
      singleton_3.pop_back = .ok popped_back ∧
      popped_back.empty = true ∧ popped_back.size = 0 ∧
      popped_back.begin = some 0 ∧ popped_back.heap 0 = none ∧
      popped_back.elems = .error .undefined :=
  ⟨singleton_3_reachable, rfl, rfl, rfl, rfl, rfl, rfl, rfl⟩

/-- C23: on the list of `size() == 1` left by
`push_back(3); pop_back(); push_front(2);`, whose `begin()` references the node
at index 0, `insert(begin(), 7)` returns with `size() == 2` and an iterator on
the new node, but the sequence is not `[7, 2]`: the node holding 2 still has
the stale `next`, so the traversal of the result never ends (when `new` had
returned the deleted address again) or reads the deleted node (otherwise). -/
theorem list_insert_after_emptying_pop :
    ListReachable refilled_same ∧ refilled_same.size = 1 ∧
      refilled_same.iter_at 0 = .ok refilled_same.begin ∧
      refilled_same.Iterator_deref refilled_same.begin = .ok 2 ∧
      (∃ r, refilled_same.insert refilled_same.begin 7 1 = .ok r ∧ r.1.size = 2 ∧
        r.1.Iterator_deref r.2 = .ok 7 ∧ r.1.elems = .error .fuel ∧
        ∀ fuel, r.1.elems_loop fuel r.1.begin = .error .fuel) ∧
      ListReachable refilled_other ∧ refilled_other.size = 1 ∧
      refilled_other.iter_at 0 = .ok refilled_other.begin ∧
      refilled_other.Iterator_deref refilled_other.begin = .ok 2 ∧
      (∃ r, refilled_other.insert refilled_other.begin 7 2 = .ok r ∧ r.1.size = 2 ∧
        r.1.Iterator_deref r.2 = .ok 7 ∧ r.1.elems = .error .undefined) ∧
      (∃ r, refilled_other.insert refilled_other.begin 7 0 = .ok r ∧ r.1.size = 2 ∧
        r.1.Iterator_deref r.2 = .ok 7 ∧ r.1.elems = .error .fuel ∧
        ∀ fuel, r.1.elems_loop fuel r.1.begin = .error .fuel) :=
  ⟨refilled_same_reachable, rfl, rfl, rfl,
    ⟨_, rfl, rfl, rfl, rfl, elems_loop_into_cycle _ 1 _ rfl
      (fun fuel => (elems_loop_cycle _ 0 0 _ _ rfl rfl rfl rfl fuel).1)⟩,
    refilled_other_reachable, rfl, rfl, rfl, ⟨_, rfl, rfl, rfl, rfl⟩,
    ⟨_, rfl, rfl, rfl, rfl, fun fuel => (elems_loop_cycle _ 0 1 _ _ rfl rfl rfl rfl fuel).1⟩⟩

/-- C24: on the one-element list after `push_back(3)`, `insert(end(), 2)` reads
`i.node_ptr->prev` through the null pointer of `end()`, whatever address `new`
would return; on a new list the same call goes through `push_front` and gives
the sequence `[2]`. -/
theorem list_insert_at_end_faults :
    ListReachable singleton_3 ∧
      (∀ a, singleton_3.insert LinkedList.end_ 2 a = .error .undefined) ∧
      ∃ r, (LinkedList.ctor : LinkedList Int).insert LinkedList.end_ 2 0 = .ok r ∧
        r.1.elems = .ok [2] :=
  ⟨singleton_3_reachable, fun _ => rfl, _, rfl, rfl⟩

/-- C25: on the list of `size() == 1` left by
`push_back(3); pop_back(); push_front(2);`, `erase(begin())` goes through
`pop_front`, which takes the stale `next` of the node as the new `first`.
When that is the address of a deleted node, `first->prev = nullptr` writes
through it.  When `new` had returned the deleted address again, it is the
victim itself: the call returns with `size() == 0`, but the returned iterator
is `begin()`, the deleted node, not `end()`, and the traversal of the result
reads the deleted node. -/
theorem list_erase_after_emptying_pop :
    ListReachable refilled_other ∧ refilled_other.size = 1 ∧
      refilled_other.iter_at 0 = .ok refilled_other.begin ∧
      refilled_other.Iterator_deref refilled_other.begin = .ok 2 ∧
      refilled_other.erase refilled_other.begin = .error .undefined ∧
      ListReachable refilled_same ∧ refilled_same.size = 1 ∧
      refilled_same.iter_at 0 = .ok refilled_same.begin ∧
      refilled_same.Iterator_deref refilled_same.begin = .ok 2 ∧
      (∃ r, refilled_same.erase refilled_same.begin = .ok r ∧ r.1.size = 0 ∧
        r.2 = some 0 ∧ r.2 ≠ LinkedList.end_ ∧ r.1.heap 0 = none ∧
        r.1.elems = .error .undefined) :=
  ⟨refilled_other_reachable, rfl, rfl, rfl, rfl, refilled_same_reachable, rfl, rfl, rfl,
    ⟨_, rfl, rfl, rfl, by decide, rfl, rfl⟩⟩

/-- C26: the list left by `push_back(3); pop_back();` cannot be copied: the
copy constructor and the assignment traverse it from `begin()`, which is the
address of the deleted node, whatever addresses `new` would return. -/
theorem list_copy_of_emptied_faults :
    ListReachable popped_back ∧ (∀ alloc, popped_back.copy_ctor alloc = .error .undefined) ∧
      (∀ alloc,
        (LinkedList.ctor : LinkedList Int).assign popped_back alloc = .error .undefined) ∧
      (∀ alloc, popped_back.assign popped_back alloc = .error .undefined) :=
  ⟨popped_back_reachable, fun _ => rfl, fun _ => rfl, fun _ => rfl⟩

/-- C27: after `push_back(3); pop_back();` the list is empty with `first` not
null, so `begin() != end()`; after `push_back(3); pop_front();` it is empty
with `last` not null; and `push_front(2)` on the former gives a list of
`size() == 1` whose only node has a successor, so the traversal from `begin()`
does not visit exactly `size()` nodes: the successor is the deleted node when
`new` returns another address than the deleted one, and the node itself when
`new` returns the deleted address again. -/
theorem list_empty_keeps_stale_pointers :
    ListReachable popped_back ∧ popped_back.empty = true ∧
      popped_back.first = some 0 ∧ popped_back.begin ≠ LinkedList.end_ ∧
      (∃ l1, singleton_3.pop_front = .ok l1 ∧ l1.empty = true ∧ l1.last = some 0) ∧
      (∃ l2, popped_back.push_front 2 1 = .ok l2 ∧ l2.size = 1 ∧
        l2.Iterator_incr l2.begin = .ok (some 0) ∧ l2.elems = .error .undefined) ∧
      (∃ l3, popped_back.push_front 2 0 = .ok l3 ∧ l3.size = 1 ∧
        l3.Iterator_incr l3.begin = .ok l3.begin ∧ l3.elems = .error .fuel ∧
        ∀ fuel, l3.elems_loop fuel l3.begin = .error .fuel) :=
  ⟨popped_back_reachable, rfl, rfl, by decide, ⟨_, rfl, rfl, rfl⟩, ⟨_, rfl, rfl, rfl, rfl⟩,
    ⟨_, rfl, rfl, rfl, rfl, refilled_same_traversal⟩⟩

/-- C28: in the list left by `push_back(3); pop_back(); push_front(2);` the
node at `begin()` has a non-null `next`, and `++it` followed by `--it` does not
give back `it`.  When `new` had returned the deleted address again the node
is its own successor with a null `prev`: `++it` stays on the node and `--it`
then gives `end()`.  Otherwise `++it` is the address of the deleted node and
`--it` reads it. -/
theorem iterator_step_after_emptying_pop :
    ListReachable refilled_same ∧
      refilled_same.Iterator_deref refilled_same.begin = .ok 2 ∧
      (∃ it2, refilled_same.Iterator_incr refilled_same.begin = .ok it2 ∧
        it2 ≠ LinkedList.end_ ∧ refilled_same.Iterator_deref it2 = .ok 2 ∧
        refilled_same.Iterator_decr it2 = .ok LinkedList.end_ ∧
        LinkedList.end_ ≠ refilled_same.begin) ∧
      ListReachable refilled_other ∧
      refilled_other.Iterator_deref refilled_other.begin = .ok 2 ∧
      (∃ it2, refilled_other.Iterator_incr refilled_other.begin = .ok it2 ∧
        it2 ≠ LinkedList.end_ ∧ refilled_other.Iterator_decr it2 = .error .undefined) :=
  ⟨refilled_same_reachable, rfl, ⟨some 0, rfl, by decide, rfl, rfl, by decide⟩,
    refilled_other_reachable, rfl, ⟨some 0, rfl, by decide, rfl⟩⟩

end P4
